import Mathlib

/-!
Verification of the annotation-overlay SVG engine of `src/svg.ts`
(chessground fork).  The definitions below are a shallow embedding of the
TypeScript source: JavaScript numbers are modelled as rationals (`ℚ`),
strings as Lean `String`, optional fields as `Option`, and JavaScript
truthiness is made explicit (`0`, `""`, `undefined` and `false` are falsy).
The string rendering of a number (JavaScript's implicit number-to-string
coercion) is modelled by `ratStr`, which agrees with JavaScript on integral
values (decimal digits, `-` sign) and renders non-integral rationals as
exact `num/den` fractions; like the JavaScript rendering it is injective.
-/

/-! ## JavaScript string joining -/

/-- JavaScript `Array.prototype.join(sep)`: concatenation with `sep`
between consecutive elements. -/
def jsJoin (sep : String) : List String → String
  | [] => ""
  | [x] => x
  | x :: y :: t => x ++ sep ++ jsJoin sep (y :: t)

/-! ## Decimal rendering of numbers -/

/-- Decimal digits with explicit fuel (structural recursion, so that the
kernel can evaluate it). -/
def natDigitsF : Nat → Nat → List Nat
  | 0, n => [n]
  | fuel + 1, n => if n < 10 then [n] else natDigitsF fuel (n / 10) ++ [n % 10]

/-- Decimal digits of a natural number, most significant first. -/
def natDigits (n : Nat) : List Nat := natDigitsF n n

/-- The character for a decimal digit. -/
def digitChar (d : Nat) : Char := Char.ofNat (48 + d)

/-- Decimal rendering of a natural number. -/
def natStr (n : Nat) : String := ⟨(natDigits n).map digitChar⟩

/-- Decimal rendering of an integer. -/
def intStr (i : Int) : String :=
  if i < 0 then "-" ++ natStr (-i).toNat else natStr i.toNat

/-- Rendering of a rational: decimal digits for integral values (as in
JavaScript), an exact fraction otherwise. -/
def ratStr (q : ℚ) : String :=
  intStr q.num ++ (if q.den = 1 then "" else "/" ++ natStr q.den)

/-- Value of a digit list, most significant first. -/
def digitsVal (l : List Nat) : Nat := l.foldl (fun a d => 10 * a + d) 0

/-! ## Data model (from `draw.ts` / `types.ts` declarations used by `svg.ts`) -/

/-- JavaScript truthiness of an optional string (`undefined` and `""` are
falsy).  Note that `cg.Key` is a union of nonempty square literals, so a
present key is always truthy. -/
def jsTruthyOpt : Option String → Bool
  | some s => s ≠ ""
  | none => false

/-- Board orientation (`cg.Color`). -/
inductive Color where
  | white
  | black
deriving DecidableEq, Repr

/-- A named visual style (`DrawBrush`). -/
structure DrawBrush where
  key : String
  color : String
  opacity : ℚ
  lineWidth : ℚ
deriving DecidableEq, Repr

/-- Modifier overrides on a shape (`DrawModifiers`); `lineWidth` is an
optional number, `hilite` an optional boolean (absence and `false` are
indistinguishable under JavaScript truthiness, so it is modelled as `Bool`). -/
structure DrawModifiers where
  lineWidth : Option ℚ
  hilite : Bool
deriving DecidableEq, Repr

/-- A piece glyph attached to a shape (`DrawShapePiece`). -/
structure DrawShapePiece where
  color : String
  role : String
  scale : Option ℚ
deriving DecidableEq, Repr

/-- A user-declared annotation (`DrawShape`). -/
structure DrawShape where
  orig : String
  dest : Option String
  brush : String
  modifiers : Option DrawModifiers
  piece : Option DrawShapePiece
  customSvg : Option String
deriving DecidableEq, Repr

/-- The live in-progress shape (`DrawCurrent`): a shape plus the tracked
pointer square. -/
structure DrawCurrent where
  shape : DrawShape
  mouseSq : Option String
deriving DecidableEq, Repr

/-- The brush catalog (`DrawBrushes`); assumed complete for every referenced
name (spec §7), hence a total map. -/
def DrawBrushes := String → DrawBrush

/-- The drawable sub-state consumed by `renderSvg`. -/
structure Drawable where
  shapes : List DrawShape
  autoShapes : List DrawShape
  current : Option DrawCurrent
  brushes : DrawBrushes
  prevSvgHash : String

/-- Viewport pixel bounds (`DOMRectReadOnly` width/height). -/
structure Bounds where
  width : ℚ
  height : ℚ
deriving DecidableEq, Repr

/-- The read-only state snapshot consumed by the engine. -/
structure State where
  drawable : Drawable
  orientation : Color
  bounds : Bounds

/-- A shape paired with its live flag and fingerprint (`SyncableShape`). -/
structure SyncableShape where
  shape : DrawShape
  current : Bool
  hash : String
deriving DecidableEq, Repr

/-! ## Geometry (`orient`, `pos2user`, lines 381–383 and 406–410) -/

/-- An 8×8 grid position (`cg.Pos`). -/
def Pos := ℤ × ℤ
deriving DecidableEq, Repr

/-- `orient` (line 381): mirrors both axes for the black orientation. -/
def orient (pos : Pos) (color : Color) : Pos :=
  if color = Color.white then pos else (7 - pos.1, 7 - pos.2)

/-- `pos2user` (line 406): board-centred user-space coordinates, scaled so
the board stays square inside possibly non-square bounds. -/
def pos2user (pos : Pos) (bounds : Bounds) : ℚ × ℚ :=
  let xScale := min 1 (bounds.width / bounds.height)
  let yScale := min 1 (bounds.height / bounds.width)
  (((pos.1 : ℚ) - 7/2) * xScale, (7/2 - (pos.2 : ℚ)) * yScale)

/-- Modelled from the spec: `key2pos` lives in `util.ts`, which is not part
of the annotation engine's source; it decodes a square literal such as
`"a1"` into file/rank grid coordinates (file from the first character,
rank from the second). -/
def key2pos (k : String) : Pos :=
  match k.data with
  | c1 :: c2 :: _ => ((c1.toNat : ℤ) - 97, (c2.toNat : ℤ) - 49)
  | _ => (0, 0)

/-! ## Brush helpers (`makeCustomBrush`, `lineWidth`, `opacity`,
`arrowMargin`, lines 385–404) -/

/-- JavaScript `x || d` on an optional number: the override only applies
when truthy (present and nonzero). -/
def jsOrNum (o : Option ℚ) (d : ℚ) : ℚ :=
  match o with
  | some w => if w = 0 then d else w
  | none => d

/-- JavaScript `Math.round`: floor of `x + 1/2`, computed exactly on
rationals by integer floor division. -/
def jsRound (q : ℚ) : ℤ := (2 * q.num + (q.den : ℤ)) / (2 * (q.den : ℤ))

/-- `makeCustomBrush` (line 385): derives a one-off brush from a base brush
and modifier overrides.  The key suffix is the JavaScript rendering of the
raw override width (dropped when falsy), exactly as
`[base.key, modifiers.lineWidth].filter(x => x).join('')`. -/
def makeCustomBrush (base : DrawBrush) (modifiers : DrawModifiers) : DrawBrush :=
  { color := base.color
    opacity := (jsRound (base.opacity * 10) : ℚ) / 10
    lineWidth := (jsRound (jsOrNum modifiers.lineWidth base.lineWidth) : ℚ)
    key := base.key ++
      (match modifiers.lineWidth with
       | some w => if w = 0 then "" else ratStr w
       | none => "") }

/-- `lineWidth` (line 394). -/
def lineWidth (brush : DrawBrush) (current : Bool) : ℚ :=
  (if brush.lineWidth = 0 then 10 else brush.lineWidth) *
    (if current then 85/100 else 1) / 64

/-- `opacity` (line 398). -/
def opacity (brush : DrawBrush) (current : Bool) : ℚ :=
  (if brush.opacity = 0 then 1 else brush.opacity) * (if current then 9/10 else 1)

/-- `arrowMargin` (line 402): 20/64 of a unit when shortening for a merged
destination, 10/64 otherwise. -/
def arrowMargin (shorten : Bool) : ℚ :=
  (if shorten then 20 else 10) / 64

/-! ## Hashing (`shapeHash` and sub-hashes, lines 105–142) -/

/-- A string entry of a JavaScript hash array: dropped by
`.filter(x => x)` when empty. -/
def strEntry (s : String) : Option String :=
  if s = "" then none else some s

/-- A numeric entry: dropped when `0`, rendered otherwise. -/
def numEntry (q : ℚ) : Option String :=
  if q = 0 then none else some (ratStr q)

/-- An optional numeric entry (`undefined` and `0` are both dropped). -/
def optNumEntry (o : Option ℚ) : Option String :=
  match o with
  | some q => numEntry q
  | none => none

/-- A boolean entry: `false` is dropped, `true` renders as `"true"`. -/
def boolEntry (b : Bool) : Option String :=
  if b then some "true" else none

/-- `pieceHash` (line 127). -/
def pieceHash (piece : DrawShapePiece) : String :=
  jsJoin "," (([strEntry piece.color, strEntry piece.role,
    optNumEntry piece.scale]).filterMap id)

/-- `modifiersHash` (line 131). -/
def modifiersHash (m : DrawModifiers) : String :=
  jsJoin "," (([optNumEntry m.lineWidth, boolEntry m.hilite]).filterMap id)

/-- JavaScript `ToUint32` (the `>>> 0` coercion). -/
def toUint32 (i : ℤ) : ℕ := (i % (4294967296 : ℤ)).toNat

/-- JavaScript `ToInt32` (the signed 32-bit reinterpretation used by `<<`). -/
def toInt32 (i : ℤ) : ℤ :=
  if i % (4294967296 : ℤ) < 2147483648 then i % (4294967296 : ℤ)
  else i % (4294967296 : ℤ) - 4294967296

/-- One step of the rolling hash: `((h << 5) - h + c) >>> 0` (line 139).
`h << 5` converts `h` to a signed 32-bit integer, shifts, and wraps to
signed 32 bits; the outer `>>> 0` converts the exact arithmetic result back
to an unsigned 32-bit value. -/
def hashStep (h : ℕ) (c : ℕ) : ℕ :=
  toUint32 (toInt32 (toInt32 (h : ℤ) * 32) - (h : ℤ) + (c : ℤ))

/-- `customSvgHash` (line 135): rolling hash with base 31 over the code
units of the content string, rendered in decimal after a fixed tag. -/
def customSvgHash (s : String) : String :=
  "custom-" ++ natStr (s.data.foldl (fun h c => hashStep h c.toNat) 0)

/-- The destination entry of `shapeHash`. -/
def destEntry : Option String → Option String
  | some d => strEntry d
  | none => none

/-- The piece entry of `shapeHash`: `piece && pieceHash(piece)`. -/
def pieceEntry : Option DrawShapePiece → Option String
  | some p => strEntry (pieceHash p)
  | none => none

/-- The modifiers entry of `shapeHash`: `modifiers && modifiersHash(modifiers)`. -/
def modEntry : Option DrawModifiers → Option String
  | some m => strEntry (modifiersHash m)
  | none => none

/-- The custom-content entry of `shapeHash`:
`customSvg && customSvgHash(customSvg)`. -/
def customEntry : Option String → Option String
  | some c => if c = "" then none else strEntry (customSvgHash c)
  | none => none

/-- The ten entries of `shapeHash` (lines 111–122), in source order; falsy
entries are `none`. -/
def hashEntries (s : DrawShape) (arrowDests : String → ℕ) (current : Bool)
    (bounds : Bounds) : List (Option String) :=
  [numEntry bounds.width,
   numEntry bounds.height,
   boolEntry current,
   strEntry s.orig,
   destEntry s.dest,
   strEntry s.brush,
   boolEntry (jsTruthyOpt s.dest && decide (arrowDests (s.dest.getD "") > 1)),
   pieceEntry s.piece,
   modEntry s.modifiers,
   customEntry s.customSvg]

/-- `shapeHash` (line 105): the entries above, falsy ones dropped, joined
with commas. -/
def shapeHash (s : DrawShape) (arrowDests : String → ℕ) (current : Bool)
    (bounds : Bounds) : String :=
  jsJoin "," ((hashEntries s arrowDests current bounds).filterMap id)

/-! ## The arrow-destination tally (lines 13, 23–25) -/

/-- One step of the tally loop: `if (s.dest) arrowDests.set(s.dest,
(arrowDests.get(s.dest) || 0) + 1)`. -/
def addDest (m : String → ℕ) (s : DrawShape) : String → ℕ :=
  match s.dest with
  | some d =>
      if d = "" then m else fun k => if k = d then m d + 1 else m k
  | none => m

/-- The arrow-destination tally of a shape list. -/
def arrowDests (l : List DrawShape) : String → ℕ :=
  l.foldl addDest (fun _ => 0)

/-! ## Rendered elements (abstractions of the produced SVG nodes) -/

/-- A rendered overlay element.  The variants record exactly the data the
source computes before writing attributes: for an arrow the mapped
endpoints, the resolved brush, the live/shorten/hilite flags and the
computed shaft margin (`renderRectangleArrow`, lines 268–323); for a square
the mapped centre (`renderSquare`, line 189); for custom content the
translation target and the raw markup (`renderCustomSvg`, line 175). -/
inductive Element where
  | customG (translate : ℚ × ℚ) (content : String) (hash : String)
  | arrowEl (brush : DrawBrush) (a : ℚ × ℚ) (b : ℚ × ℚ)
      (current : Bool) (shorten : Bool) (hilite : Bool) (margin : ℚ) (hash : String)
  | squareEl (brush : DrawBrush) (o : ℚ × ℚ) (current : Bool) (hash : String)
deriving DecidableEq, Repr

/-- The `cgHash` attribute written by `renderShape` (line 171). -/
def Element.setHash : Element → String → Element
  | .customG t c _, h => .customG t c h
  | .arrowEl b a bb cu sh hi m _, h => .arrowEl b a bb cu sh hi m h
  | .squareEl b o c _, h => .squareEl b o c h

/-- The shaft margin of a rendered arrow element, if it is one. -/
def Element.margin : Element → Option ℚ
  | .arrowEl _ _ _ _ _ _ m _ => some m
  | _ => none

/-- Whether an element is a square highlight. -/
def Element.isSquare : Element → Bool
  | .squareEl _ _ _ _ => true
  | _ => false

/-- `renderCustomSvg` (line 175). -/
def renderCustomSvg (customSvg : String) (pos : Pos) (bounds : Bounds) : Element :=
  .customG (pos2user pos bounds) customSvg ""

/-- `renderSquare` (line 189). -/
def renderSquare (brush : DrawBrush) (pos : Pos) (current : Bool)
    (bounds : Bounds) : Element :=
  .squareEl brush (pos2user pos bounds) current ""

/-- `renderRectangleArrow` (line 268): the shaft margin is
`arrowMargin(shorten && !current)` (line 278); the remaining geometry
(angle, trigonometric offsets) is determined by the recorded endpoints,
margin and flags. -/
def renderRectangleArrow (brush : DrawBrush) (orig : Pos) (dest : Pos)
    (current : Bool) (shorten : Bool) (bounds : Bounds) (hilited : Bool) : Element :=
  .arrowEl brush (pos2user orig bounds) (pos2user dest bounds)
    current shorten hilited (arrowMargin (shorten && !current)) ""

/-- `shape.modifiers?.hilite` under JavaScript truthiness. -/
def hiliteOf (modifiers : Option DrawModifiers) : Bool :=
  match modifiers with
  | some m => m.hilite
  | none => false

/-- `renderShape` (line 144): dispatches to custom markup, arrow (present
destination different from origin) or square highlight, and tags the
element with the shape's fingerprint. -/
def renderShape (state : State) (sc : SyncableShape) (brushes : DrawBrushes)
    (arrowDests : String → ℕ) (bounds : Bounds) : Element :=
  let orig := orient (key2pos sc.shape.orig) state.orientation
  let el : Element :=
    if jsTruthyOpt sc.shape.customSvg then
      renderCustomSvg (sc.shape.customSvg.getD "") orig bounds
    else if jsTruthyOpt sc.shape.dest && decide (sc.shape.dest ≠ some sc.shape.orig) then
      let brush : DrawBrush :=
        match sc.shape.modifiers with
        | some m => makeCustomBrush (brushes sc.shape.brush) m
        | none => brushes sc.shape.brush
      renderRectangleArrow brush orig
        (orient (key2pos (sc.shape.dest.getD "")) state.orientation)
        sc.current (decide (arrowDests (sc.shape.dest.getD "") > 1)) bounds
        (hiliteOf sc.shape.modifiers)
    else renderSquare (brushes sc.shape.brush) orig sc.current bounds
  el.setHash sc.hash

/-! ## The definitions pool (`syncDefs`, `renderMarker`,
`renderLinearOpacityGradient`, lines 79–103, 325–370) -/

/-- An arrowhead marker element (`renderMarker`, line 325): carries its
brush key in the `cgKey` attribute. -/
structure MarkerEl where
  id : String
  refX : ℚ
  color : String
  cgKey : String
deriving DecidableEq, Repr

/-- A linear opacity gradient element (`renderLinearOpacityGradient`,
line 347): identified only through its `id`; it has no `cgKey` attribute. -/
structure GradientEl where
  id : String
  color : String
deriving DecidableEq, Repr

/-- A child of the `<defs>` pool. -/
inductive DefElem where
  | marker (m : MarkerEl)
  | gradient (g : GradientEl)
deriving DecidableEq, Repr

/-- `renderMarker` (line 325). -/
def renderMarker (brush : DrawBrush) : DefElem :=
  .marker { id := "arrowhead-" ++ brush.key
            refX := if brush.key = "hilite" then 386/100 else 4
            color := brush.color
            cgKey := brush.key }

/-- `renderLinearOpacityGradient` (line 347). -/
def renderLinearOpacityGradient (brush : DrawBrush) : DefElem :=
  .gradient { id := "linearOpacityGradient-" ++ brush.key
              color := brush.color }

/-- `el.getAttribute('cgKey')` on a pool child (`null` for gradients, which
never set it). -/
def cgKeyAttr : DefElem → Option String
  | .marker m => some m.cgKey
  | .gradient _ => none

/-- JavaScript `Map.prototype.set` on an insertion-ordered association
list: overwrites in place if the key exists, appends otherwise. -/
def mapSet (m : List (String × DrawBrush)) (k : String) (v : DrawBrush) :
    List (String × DrawBrush) :=
  if m.any (fun p => p.1 == k) then
    m.map (fun p => if p.1 = k then (k, v) else p)
  else m ++ [(k, v)]

/-- The synthetic hilite brush (line 87). -/
def hiliteBrush : DrawBrush :=
  { key := "hilite", color := "white", opacity := 1, lineWidth := 1 }

/-- The brush-collection loop of `syncDefs` (lines 81–90): for every
destination-carrying shape, resolve its (possibly customised) brush, ensure
the synthetic hilite brush when the hilite modifier is requested, and
record the resolved brush under its key. -/
def requiredBrushes (d : Drawable) (shapes : List SyncableShape) :
    List (String × DrawBrush) :=
  shapes.foldl
    (fun m s =>
      if jsTruthyOpt s.shape.dest then
        let brush : DrawBrush :=
          match s.shape.modifiers with
          | some mo => makeCustomBrush (d.brushes s.shape.brush) mo
          | none => d.brushes s.shape.brush
        let m := if hiliteOf s.shape.modifiers then mapSet m "hilite" hiliteBrush else m
        mapSet m brush.key brush
      else m)
    []

/-- The append loop of `syncDefs` (lines 97–102): for every required key
not yet tagged in the pool, append one marker and one gradient. -/
def appendedDefs (required : List (String × DrawBrush))
    (keysInDom : List (Option String)) : List DefElem :=
  required.foldl
    (fun acc kb =>
      if some kb.1 ∈ keysInDom then acc
      else acc ++ [renderMarker kb.2, renderLinearOpacityGradient kb.2])
    []

/-- `syncDefs` (line 80): append-only reconciliation of the definitions
pool; `keysInDom` collects the `cgKey` attributes of all existing children
(including the `null` of gradients). -/
def syncDefs (d : Drawable) (shapes : List SyncableShape)
    (defsChildren : List DefElem) : List DefElem :=
  defsChildren ++
    appendedDefs (requiredBrushes d shapes) (defsChildren.map cgKeyAttr)

/-! ## The render pass (`renderSvg`, lines 15–77) -/

/-- `cur` (line 18): the current shape participates only when it has a
tracked pointer square. -/
def passCur (d : Drawable) : Option DrawShape :=
  match d.current with
  | some c => if jsTruthyOpt c.mouseSq then some c.shape else none
  | none => none

/-- `nonPieceAutoShapes` (line 21): auto shapes carrying a piece are
excluded from the pass. -/
def nonPieceAutoShapes (d : Drawable) : List DrawShape :=
  d.autoShapes.filter (fun s => s.piece.isNone)

/-- The list the tally loop runs over (line 23). -/
def passTallyList (d : Drawable) : List DrawShape :=
  d.shapes ++ nonPieceAutoShapes d ++ (passCur d).toList

/-- The arrow-destination tally of the pass. -/
def passDests (d : Drawable) : String → ℕ :=
  arrowDests (passTallyList d)

/-- The syncable shape list of the pass (lines 27–39): persisted and
piece-free auto shapes, then the current shape appended last. -/
def passSyncables (d : Drawable) (bounds : Bounds) : List SyncableShape :=
  ((d.shapes ++ nonPieceAutoShapes d).map
    (fun s => ⟨s, false, shapeHash s (passDests d) false bounds⟩)) ++
  ((passCur d).toList.map
    (fun c => ⟨c, true, shapeHash c (passDests d) true bounds⟩))

/-- The aggregate fingerprint of the pass (line 41). -/
def fullHash (d : Drawable) (bounds : Bounds) : String :=
  jsJoin ";" ((passSyncables d bounds).map (fun sc => sc.hash))

/-- The desired children of the main annotation layer (lines 67–71). -/
def mainEls (st : State) : List Element :=
  ((passSyncables st.drawable st.bounds).filter
    (fun s => !jsTruthyOpt s.shape.customSvg)).map
    (fun sc => renderShape st sc st.drawable.brushes (passDests st.drawable) st.bounds)

/-- The desired children of the custom-markup layer (lines 72–76). -/
def customEls (st : State) : List Element :=
  ((passSyncables st.drawable st.bounds).filter
    (fun s => jsTruthyOpt s.shape.customSvg)).map
    (fun sc => renderShape st sc st.drawable.brushes (passDests st.drawable) st.bounds)

/-- The scene mutation performed by one (non-short-circuited) render pass:
the new definitions pool and the two reconciled child lists.  The child
lists model the external `syncShapes` reconciliation primitive.
Modelled from the spec: `syncShapes` lives in `sync.ts`, outside this
engine; per §6 it synchronises the parent's children to match the desired
fingerprint-tagged list, so the post-state children are exactly the
rendered desired list. -/
structure SceneUpdate where
  defs : List DefElem
  mainChildren : List Element
  customChildren : List Element
deriving DecidableEq

/-- The observable outcome of `renderSvg`: the stored aggregate hash after
the call, and the scene mutation (`none` when the call returned early at
line 42 without touching any scene node). -/
structure RenderResult where
  prevSvgHash : String
  update : Option SceneUpdate

/-- `renderSvg` (line 15), as a pure function of the state snapshot and the
current children of the definitions pool. -/
def renderSvg (st : State) (defsChildren : List DefElem) : RenderResult :=
  let d := st.drawable
  if fullHash d st.bounds = d.prevSvgHash then
    { prevSvgHash := d.prevSvgHash, update := none }
  else
    { prevSvgHash := fullHash d st.bounds
      update := some
        { defs := syncDefs d (passSyncables d st.bounds) defsChildren
          mainChildren := mainEls st
          customChildren := customEls st } }

/-! ## Definitions used to state the claims -/

/-- Modelled from the spec: the custom-content sub-hash as the spec words
it — "a 32-bit rolling multiplicative hash (multiplier 31, unsigned
overflow wraps at 2^32) over the raw content string". -/
def specRollingHash (s : String) : ℕ :=
  s.data.foldl (fun h c => (31 * h + c.toNat) % 4294967296) 0

/-- Number of arrowhead markers tagged with key `k` in a pool fragment. -/
def countMarker (k : String) (l : List DefElem) : ℕ :=
  (l.filter (fun e => decide (cgKeyAttr e = some k))).length

/-- Number of opacity gradients for key `k` (identified by their `id`) in a
pool fragment. -/
def countGradient (k : String) (l : List DefElem) : ℕ :=
  (l.filter (fun e =>
    match e with
    | .gradient g => decide (g.id = "linearOpacityGradient-" ++ k)
    | .marker _ => false)).length

/-- Falsy-normalisation of an optional modifiers record: the truthy line
width (if any) and the hilite flag.  Falsy-equivalent records (e.g.
`{lineWidth: 0, hilite: false}` and absent modifiers) normalise equally. -/
def modNorm : Option DrawModifiers → Option ℚ × Bool
  | some m =>
      ((match m.lineWidth with
        | some w => if w = 0 then none else some w
        | none => none), m.hilite)
  | none => (none, false)

/-- No character of the string is a comma (true of every `cg.Key`, which
is a two-character square literal). -/
def commaFreeOpt (o : Option String) : Prop :=
  ∀ v ∈ o, ∀ c ∈ v.data, c ≠ ','

/-! ## Concrete instances used by the claims -/

def greenBrush : DrawBrush :=
  { key := "green", color := "#15781B", opacity := 1, lineWidth := 10 }

def redBrush : DrawBrush :=
  { key := "red", color := "#882020", opacity := 1, lineWidth := 10 }

def demoBrushes : DrawBrushes := fun n => if n = "red" then redBrush else greenBrush

/-- A plain arrow shape. -/
def arrowShape (o d br : String) : DrawShape :=
  { orig := o, dest := some d, brush := br, modifiers := none, piece := none,
    customSvg := none }

def b512 : Bounds := { width := 512, height := 512 }

def mkDemoState (shapes : List DrawShape) (current : Option DrawCurrent) : State :=
  { drawable :=
      { shapes := shapes, autoShapes := [], current := current,
        brushes := demoBrushes, prevSvgHash := "prev" }
    orientation := Color.white
    bounds := b512 }

/-- Three arrows into e4, none live. -/
def stThreeArrows : State :=
  mkDemoState [arrowShape "a1" "e4" "green", arrowShape "b2" "e4" "green",
               arrowShape "c3" "e4" "green"] none

/-- Two persisted arrows into e4 plus the same third arrow as the live one. -/
def stTwoPlusLive : State :=
  mkDemoState [arrowShape "a1" "e4" "green", arrowShape "b2" "e4" "green"]
    (some { shape := arrowShape "c3" "e4" "green", mouseSq := some "e4" })

/-- A genuine arrow a1→e4 plus a degenerate shape whose destination equals
its origin e4. -/
def stArrowPlusDegenerate : State :=
  mkDemoState [arrowShape "a1" "e4" "green", arrowShape "e4" "e4" "red"] none

/-- The same genuine arrow alone. -/
def stArrowOnly : State := mkDemoState [arrowShape "a1" "e4" "green"] none

/-- An empty pass whose stored hash already matches. -/
def stEmpty : State :=
  { drawable :=
      { shapes := [], autoShapes := [], current := none, brushes := demoBrushes,
        prevSvgHash := "" }
    orientation := Color.white
    bounds := b512 }

/-- A syncable wrapper for the a1→e4 arrow. -/
def scA1E4 : SyncableShape := { shape := arrowShape "a1" "e4" "green", current := false, hash := "h" }

/-- Two shapes that differ only in their custom markup, whose 32-bit
sub-hashes collide (both hash to 2112). -/
def shapeCustomAa : DrawShape :=
  { orig := "a1", dest := none, brush := "green", modifiers := none, piece := none,
    customSvg := some "Aa" }

def shapeCustomBB : DrawShape :=
  { orig := "a1", dest := none, brush := "green", modifiers := none, piece := none,
    customSvg := some "BB" }

/-- A destination-free shape requesting the hilite modifier. -/
def scHiliteNoDest : SyncableShape :=
  { shape := { orig := "a1", dest := none, brush := "green",
               modifiers := some { lineWidth := none, hilite := true },
               piece := none, customSvg := none }
    current := false, hash := "h" }

/-- A destination-carrying shape requesting the hilite modifier. -/
def scHiliteWithDest : SyncableShape :=
  { shape := { orig := "a1", dest := some "e4", brush := "green",
               modifiers := some { lineWidth := none, hilite := true },
               piece := none, customSvg := none }
    current := false, hash := "h" }

/-- An auto shape carrying an attached piece. -/
def pieceAutoShape : DrawShape :=
  { orig := "a1", dest := none, brush := "green", modifiers := none,
    piece := some { color := "white", role := "knight", scale := none },
    customSvg := none }

/-- The drawable with its auto shapes replaced. -/
def withAutoShapes (d : Drawable) (A : List DrawShape) : Drawable :=
  { d with autoShapes := A }

/-- The state with its auto shapes replaced. -/
def stateWithAutoShapes (st : State) (A : List DrawShape) : State :=
  { st with drawable := withAutoShapes st.drawable A }

/-! ## Theorems -/

theorem natDigitsF_congr :
    ∀ fuel1 fuel2 n, n ≤ fuel1 → n ≤ fuel2 →
      natDigitsF fuel1 n = natDigitsF fuel2 n := by
  intro fuel1
  induction fuel1 with
  | zero =>
    intro fuel2 n h1 _
    have hn : n = 0 := by omega
    subst hn
    cases fuel2 <;> simp [natDigitsF]
  | succ m ih =>
    intro fuel2 n h1 h2
    cases fuel2 with
    | zero =>
      have hn : n = 0 := by omega
      subst hn
      simp [natDigitsF]
    | succ m2 =>
      simp only [natDigitsF]
      split
      · rfl
      · rename_i hge
        have hrec := ih m2 (n / 10) (by omega) (by omega)
        rw [hrec]

/-- The defining recurrence of `natDigits`. -/
theorem natDigits_eq (n : Nat) :
    natDigits n = if n < 10 then [n] else natDigits (n / 10) ++ [n % 10] := by
  cases n with
  | zero => simp [natDigits, natDigitsF]
  | succ m =>
    show natDigitsF (m + 1) (m + 1) = _
    simp only [natDigitsF]
    split
    · rfl
    · rename_i hge
      rw [natDigitsF_congr m ((m + 1) / 10) ((m + 1) / 10) (by omega) (by omega)]
      rfl

theorem digitsVal_natDigits (n : Nat) : digitsVal (natDigits n) = n := by
  induction n using Nat.strong_induction_on with
  | _ n ih =>
    rw [natDigits_eq]
    split
    · simp [digitsVal]
    · rename_i h
      have hd : n / 10 < n := by omega
      have hrec := ih _ hd
      simp only [digitsVal] at hrec ⊢
      rw [List.foldl_append, hrec]
      simp only [List.foldl_cons, List.foldl_nil]
      omega

theorem natDigits_injective {m n : Nat} (h : natDigits m = natDigits n) : m = n := by
  have := digitsVal_natDigits m
  rw [h, digitsVal_natDigits] at this
  omega

theorem natDigits_lt (n : Nat) : ∀ d ∈ natDigits n, d < 10 := by
  induction n using Nat.strong_induction_on with
  | _ n ih =>
    rw [natDigits_eq]
    split
    · rename_i h; simpa using h
    · intro d hd
      simp only [List.mem_append, List.mem_singleton] at hd
      rcases hd with hd | hd
      · exact ih _ (by omega) d hd
      · omega

theorem natDigits_ne_nil (n : Nat) : natDigits n ≠ [] := by
  rw [natDigits_eq]; split <;> simp

theorem digitChar_toNat {d : Nat} (h : d < 10) : (digitChar d).toNat = 48 + d := by
  interval_cases d <;> rfl

theorem digitChar_inj {d1 d2 : Nat} (h1 : d1 < 10) (h2 : d2 < 10)
    (h : digitChar d1 = digitChar d2) : d1 = d2 := by
  have := congrArg Char.toNat h
  rw [digitChar_toNat h1, digitChar_toNat h2] at this
  omega

theorem natStr_injective {m n : Nat} (h : natStr m = natStr n) : m = n := by
  apply natDigits_injective
  have hdata : (natDigits m).map digitChar = (natDigits n).map digitChar :=
    congrArg String.data h
  have hm := natDigits_lt m
  have hn := natDigits_lt n
  revert hdata hm hn
  generalize natDigits m = lm
  generalize natDigits n = ln
  induction lm generalizing ln with
  | nil => cases ln <;> simp
  | cons a t iht =>
    cases ln with
    | nil => simp
    | cons b u =>
      intro hdata hm hn
      simp only [List.map_cons, List.cons.injEq] at hdata
      have hab : a = b :=
        digitChar_inj (hm a (by simp)) (hn b (by simp)) hdata.1
      have htu : t = u := iht u hdata.2
        (fun d hd => hm d (List.mem_cons_of_mem a hd))
        (fun d hd => hn d (List.mem_cons_of_mem b hd))
      rw [hab, htu]

theorem natStr_chars (n : Nat) : ∀ c ∈ (natStr n).data, 48 ≤ c.toNat ∧ c.toNat ≤ 57 := by
  intro c hc
  simp only [natStr, List.mem_map] at hc
  obtain ⟨d, hd, rfl⟩ := hc
  have hlt := natDigits_lt n d hd
  rw [digitChar_toNat hlt]
  omega

theorem natStr_ne_empty (n : Nat) : natStr n ≠ "" := by
  intro h
  have : (natStr n).data = [] := by rw [h]
  simp only [natStr] at this
  exact natDigits_ne_nil n (by simpa using this)

theorem intStr_chars (i : Int) :
    ∀ c ∈ (intStr i).data, c.toNat = 45 ∨ (48 ≤ c.toNat ∧ c.toNat ≤ 57) := by
  intro c hc
  simp only [intStr] at hc
  split at hc
  · rw [String.data_append] at hc
    rcases List.mem_append.1 hc with hc | hc
    · left
      simp only [show ("-" : String).data = ['-'] from rfl, List.mem_singleton] at hc
      rw [hc]; rfl
    · exact Or.inr (natStr_chars _ c hc)
  · exact Or.inr (natStr_chars _ c hc)

theorem natStr_head_digit (n : Nat) :
    ∃ c t, (natStr n).data = c :: t ∧ 48 ≤ c.toNat ∧ c.toNat ≤ 57 := by
  have hne := natDigits_ne_nil n
  rcases hl : natDigits n with _ | ⟨d, ds⟩
  · exact absurd hl hne
  · refine ⟨digitChar d, ds.map digitChar, ?_, ?_⟩
    · simp [natStr, hl]
    · have : d ∈ natDigits n := by rw [hl]; simp
      have hd10 := natDigits_lt n d this
      rw [digitChar_toNat hd10]
      omega

theorem intStr_injective {i j : Int} (h : intStr i = intStr j) : i = j := by
  have hdata := congrArg String.data h
  simp only [intStr] at hdata
  split at hdata <;> split at hdata
  · rename_i hi hj
    rw [String.data_append, String.data_append] at hdata
    have := List.append_cancel_left hdata
    have := natStr_injective (String.ext this)
    omega
  · rename_i hi hj
    obtain ⟨c, t, hct, hc1, hc2⟩ := natStr_head_digit j.toNat
    rw [String.data_append, hct, show ("-" : String).data = ['-'] from rfl] at hdata
    have hhead : '-' = c := by
      have := hdata
      simp only [List.cons_append, List.nil_append] at this
      exact (List.cons.inj this).1
    have := congrArg Char.toNat hhead
    simp only [show ('-').toNat = 45 from rfl] at this
    omega
  · rename_i hi hj
    obtain ⟨c, t, hct, hc1, hc2⟩ := natStr_head_digit i.toNat
    rw [String.data_append, hct, show ("-" : String).data = ['-'] from rfl] at hdata
    have hhead : c = '-' := by
      have := hdata
      simp only [List.cons_append, List.nil_append] at this
      exact (List.cons.inj this).1
    have := congrArg Char.toNat hhead
    simp only [show ('-').toNat = 45 from rfl] at this
    omega
  · rename_i hi hj
    have := natStr_injective (String.ext hdata)
    omega

theorem intStr_no_slash (i : Int) : ∀ c ∈ (intStr i).data, c ≠ '/' := by
  intro c hc heq
  rcases intStr_chars i c hc with h | h
  · rw [heq] at h; exact absurd h (by decide)
  · rw [heq] at h; exact absurd h (by decide)

/-- Splitting a character list at a separator character that occurs in
neither left part determines both parts. -/
theorem append_sep_inj {c : Char} {l1 l2 r1 r2 : List Char}
    (h1 : c ∉ l1) (h2 : c ∉ l2) (h : l1 ++ c :: r1 = l2 ++ c :: r2) :
    l1 = l2 ∧ r1 = r2 := by
  induction l1 generalizing l2 with
  | nil =>
    cases l2 with
    | nil => simpa using h
    | cons b u =>
      simp only [List.nil_append, List.cons_append] at h
      have hb := (List.cons.inj h).1
      exact absurd (by rw [hb]; simp) h2
  | cons a t iht =>
    cases l2 with
    | nil =>
      simp only [List.nil_append, List.cons_append] at h
      have ha := (List.cons.inj h).1
      exact absurd (by rw [← ha]; simp) h1
    | cons b u =>
      simp only [List.cons_append] at h
      have hab := (List.cons.inj h).1
      have ht := iht (fun hm => h1 (List.mem_cons_of_mem a hm))
        (fun hm => h2 (List.mem_cons_of_mem b hm)) (List.cons.inj h).2
      exact ⟨by rw [hab, ht.1], ht.2⟩

theorem ratStr_injective {q r : ℚ} (h : ratStr q = ratStr r) : q = r := by
  have hdata := congrArg String.data h
  simp only [ratStr] at hdata
  split at hdata <;> split at hdata
  · rename_i hq hr
    simp only [String.data_append, show ("" : String).data = [] from rfl,
      List.append_nil] at hdata
    have hnum := intStr_injective (String.ext hdata)
    exact Rat.ext hnum (by rw [hq, hr])
  · rename_i hq hr
    exfalso
    simp only [String.data_append, show ("" : String).data = [] from rfl,
      show ("/" : String).data = ['/'] from rfl, List.append_nil,
      List.append_assoc, List.cons_append, List.nil_append] at hdata
    have : '/' ∈ (intStr q.num).data := by
      rw [hdata]; simp
    exact intStr_no_slash q.num '/' this rfl
  · rename_i hq hr
    exfalso
    simp only [String.data_append, show ("" : String).data = [] from rfl,
      show ("/" : String).data = ['/'] from rfl, List.append_nil,
      List.append_assoc, List.cons_append, List.nil_append] at hdata
    have : '/' ∈ (intStr r.num).data := by
      rw [← hdata]; simp
    exact intStr_no_slash r.num '/' this rfl
  · rename_i hq hr
    simp only [String.data_append, show ("/" : String).data = ['/'] from rfl,
      List.append_assoc, List.cons_append, List.nil_append] at hdata
    have hsplit := append_sep_inj
      (fun hm => intStr_no_slash q.num '/' hm rfl)
      (fun hm => intStr_no_slash r.num '/' hm rfl) hdata
    have hnum := intStr_injective (String.ext hsplit.1)
    have hden := natStr_injective (String.ext hsplit.2)
    exact Rat.ext hnum hden

theorem intStr_ne_empty (i : Int) : intStr i ≠ "" := by
  intro h
  simp only [intStr] at h
  split at h
  · have hdata := congrArg String.data h
    rw [String.data_append] at hdata
    simp [show ("-" : String).data = ['-'] from rfl] at hdata
  · exact natStr_ne_empty _ h

theorem ratStr_ne_empty (q : ℚ) : ratStr q ≠ "" := by
  intro h
  rw [ratStr] at h
  have hdata := congrArg String.data h
  rw [String.data_append] at hdata
  have hnil : (intStr q.num).data = [] := (List.append_eq_nil.mp hdata).1
  exact intStr_ne_empty q.num (String.ext hnil)

/-! ## Lemmas about `jsJoin` -/

theorem str_append_cancel_left {a b c : String} (h : a ++ b = a ++ c) : b = c := by
  have := congrArg String.data h
  rw [String.data_append, String.data_append] at this
  exact String.ext (List.append_cancel_left this)

theorem str_append_cancel_right {a b c : String} (h : a ++ c = b ++ c) : a = b := by
  have := congrArg String.data h
  rw [String.data_append, String.data_append] at this
  exact String.ext (List.append_cancel_right this)

theorem jsJoin_cons_ne (sep : String) (x : String) {t : List String} (h : t ≠ []) :
    jsJoin sep (x :: t) = x ++ sep ++ jsJoin sep t := by
  cases t with
  | nil => exact absurd rfl h
  | cons y u => rfl

/-- Length of a join with an explicit head. -/
theorem jsJoin_length_cons (sep : String) :
    ∀ (t : List String) (x : String),
      (jsJoin sep (x :: t)).length =
        x.length + (t.map (fun s => sep.length + s.length)).sum := by
  intro t
  induction t with
  | nil => intro x; simp [jsJoin]
  | cons y u iht =>
    intro x
    rw [jsJoin_cons_ne sep x (by simp), String.length_append, String.length_append,
      iht y]
    simp only [List.map_cons, List.sum_cons]
    omega

theorem jsJoin_append_cancel (sep : String) {p l1 l2 : List String}
    (h1 : l1 ≠ []) (h2 : l2 ≠ [])
    (h : jsJoin sep (p ++ l1) = jsJoin sep (p ++ l2)) :
    jsJoin sep l1 = jsJoin sep l2 := by
  induction p with
  | nil => simpa using h
  | cons a t iht =>
    rw [List.cons_append, List.cons_append,
      jsJoin_cons_ne sep a (by simp [h1]),
      jsJoin_cons_ne sep a (by simp [h2])] at h
    exact iht (str_append_cancel_left h)

/-- If two joined lists agree and start with comma-free heads, the heads agree. -/
theorem jsJoin_head_inj {d1 d2 : String} {M1 M2 : List String}
    (hc1 : ∀ c ∈ d1.data, c ≠ ',') (hc2 : ∀ c ∈ d2.data, c ≠ ',')
    (h : jsJoin "," (d1 :: M1) = jsJoin "," (d2 :: M2)) : d1 = d2 := by
  cases M1 with
  | nil =>
    cases M2 with
    | nil => simpa [jsJoin] using h
    | cons y u =>
      exfalso
      rw [jsJoin_cons_ne "," d2 (by simp)] at h
      simp only [jsJoin] at h
      have hdata := congrArg String.data h
      rw [String.data_append, String.data_append,
        show ("," : String).data = [','] from rfl] at hdata
      have : ',' ∈ d1.data := by rw [hdata]; simp
      exact hc1 ',' this rfl
  | cons y1 u1 =>
    cases M2 with
    | nil =>
      exfalso
      rw [jsJoin_cons_ne "," d1 (by simp)] at h
      simp only [jsJoin] at h
      have hdata := congrArg String.data h
      rw [String.data_append, String.data_append,
        show ("," : String).data = [','] from rfl] at hdata
      have : ',' ∈ d2.data := by rw [← hdata]; simp
      exact hc2 ',' this rfl
    | cons y2 u2 =>
      rw [jsJoin_cons_ne "," d1 (by simp), jsJoin_cons_ne "," d2 (by simp)] at h
      have hdata := congrArg String.data h
      simp only [String.data_append, show ("," : String).data = [','] from rfl,
        List.append_assoc, List.cons_append, List.nil_append] at hdata
      exact String.ext (append_sep_inj (fun hm => hc1 ',' hm rfl)
        (fun hm => hc2 ',' hm rfl) hdata).1

theorem str_length_ne_zero {v : String} (h : v ≠ "") : v.length ≠ 0 := by
  intro hz
  apply h
  cases v with
  | mk data =>
    cases data with
    | nil => rfl
    | cons c t => simp [String.length] at hz

/-- Changing exactly one (optional) component of a joined list, keeping the
surrounding components fixed, changes the join — provided present components
are nonempty strings. -/
theorem jsJoin_slot_inj (sep : String) (p q : List String) {o1 o2 : Option String}
    (h1 : ∀ v ∈ o1, v ≠ "") (h2 : ∀ v ∈ o2, v ≠ "")
    (h : jsJoin sep (p ++ o1.toList ++ q) = jsJoin sep (p ++ o2.toList ++ q)) :
    o1 = o2 := by
  have hlen := congrArg String.length h
  have key : ∀ (v : String) (hv : v.length ≠ 0),
      (jsJoin sep (p ++ [v] ++ q)).length ≠ (jsJoin sep (p ++ q)).length := by
    intro v hv
    cases p with
    | nil =>
      cases q with
      | nil => simpa [jsJoin] using hv
      | cons y u =>
        simp only [List.nil_append, List.singleton_append]
        rw [jsJoin_length_cons sep (y :: u) v, jsJoin_length_cons sep u y]
        simp only [List.map_cons, List.sum_cons]
        omega
    | cons a t =>
      simp only [List.cons_append, List.append_assoc, List.singleton_append,
        List.nil_append]
      rw [jsJoin_length_cons sep (t ++ v :: q) a, jsJoin_length_cons sep (t ++ q) a]
      simp only [List.map_append, List.sum_append, List.map_cons, List.sum_cons]
      omega
  cases o1 with
  | none =>
    cases o2 with
    | none => rfl
    | some v2 =>
      exfalso
      exact key v2 (str_length_ne_zero (h2 v2 (by simp)))
        (by simpa [Option.toList] using hlen.symm)
  | some v1 =>
    cases o2 with
    | none =>
      exfalso
      exact key v1 (str_length_ne_zero (h1 v1 (by simp)))
        (by simpa [Option.toList] using hlen)
    | some v2 =>
      congr 1
      have hmid : jsJoin sep (v1 :: q) = jsJoin sep (v2 :: q) :=
        @jsJoin_append_cancel sep p (v1 :: q) (v2 :: q) (by simp) (by simp)
          (by simpa [Option.toList, List.append_assoc] using h)
      cases q with
      | nil => simpa [jsJoin] using hmid
      | cons y u =>
        rw [jsJoin_cons_ne sep v1 (by simp), jsJoin_cons_ne sep v2 (by simp)] at hmid
        exact str_append_cancel_right (str_append_cancel_right hmid)

/-! ### Helper lemmas for the render pass -/

theorem margin_setHash (el : Element) (h : String) :
    (el.setHash h).margin = el.margin := by
  cases el <;> rfl

theorem margin_arrowEl (brush : DrawBrush) (a b : ℚ × ℚ)
    (cu sh hi : Bool) (m : ℚ) (hash : String) :
    (Element.arrowEl brush a b cu sh hi m hash).margin = some m := rfl

theorem renderSvg_prevHash (st : State) (cs : List DefElem) :
    (renderSvg st cs).prevSvgHash = fullHash st.drawable st.bounds := by
  simp only [renderSvg]
  split
  · rename_i h; exact h.symm
  · rfl

/-! ### C8 — orientation mirroring -/

/-- C8: for every grid position and equal bounds, the black orientation
mirrors both axes (`pos ↦ (7 − x, 7 − y)`) before user-space conversion
while white leaves the position unchanged; in particular square (0,0)
under black yields exactly the user-space coordinates of (7,7) under
white. -/
theorem orient_mirrors_and_corners_coincide :
    (∀ (p : Pos) (b : Bounds),
        pos2user (orient p Color.black) b = pos2user (7 - p.1, 7 - p.2) b ∧
        pos2user (orient p Color.white) b = pos2user p b) ∧
    (∀ b : Bounds,
        pos2user (orient ((0 : ℤ), (0 : ℤ)) Color.black) b =
          pos2user (orient ((7 : ℤ), (7 : ℤ)) Color.white) b) := by
  refine ⟨fun p b => ⟨rfl, rfl⟩, fun b => ?_⟩
  show pos2user ((7 : ℤ) - 0, (7 : ℤ) - 0) b = pos2user ((7 : ℤ), (7 : ℤ)) b
  norm_num

/-! ### C6 — the rolling custom-content hash -/

theorem hashStep_eq (h c : ℕ) :
    hashStep h c = (31 * h + c) % 4294967296 := by
  unfold hashStep toUint32 toInt32
  split_ifs <;> omega

theorem rollFold_eq (l : List Char) (h : ℕ) :
    l.foldl (fun h c => hashStep h c.toNat) h =
      l.foldl (fun h c => (31 * h + c.toNat) % 4294967296) h := by
  have hfun : (fun (h : ℕ) (c : Char) => hashStep h c.toNat) =
      (fun (h : ℕ) (c : Char) => (31 * h + c.toNat) % 4294967296) := by
    funext h c
    exact hashStep_eq h c.toNat
  rw [hfun]

/-- C6: the shift-and-subtract computation `((h << 5) - h + c) >>> 0` of
`customSvgHash` realises the multiplier-31 rolling hash modulo 2^32, and
the sub-hash is the fixed tag `custom-` followed by its decimal
rendering. -/
theorem customSvgHash_realizes_rolling_hash (s : String) :
    customSvgHash s = "custom-" ++ natStr (specRollingHash s) := by
  simp only [customSvgHash, specRollingHash]
  rw [rollFold_eq s.data 0]

/-! ### C3 — derived custom brushes -/

/-- C3: a derived custom brush keeps the base colour, rounds the opacity
to one decimal and the line width (truthy override first, else base) to
the nearest integer, and keys itself as the base key plus the rendered
override width (empty suffix when the override is absent/falsy); identical
overrides collapse onto one key, distinct override widths give distinct
keys. -/
theorem makeCustomBrush_spec :
    (∀ (base : DrawBrush) (m : DrawModifiers) (w : ℚ),
        m.lineWidth = some w → w ≠ 0 →
        makeCustomBrush base m =
          { color := base.color
            opacity := (jsRound (base.opacity * 10) : ℚ) / 10
            lineWidth := (jsRound w : ℚ)
            key := base.key ++ ratStr w }) ∧
    (∀ (base : DrawBrush) (m : DrawModifiers),
        m.lineWidth = none →
        makeCustomBrush base m =
          { color := base.color
            opacity := (jsRound (base.opacity * 10) : ℚ) / 10
            lineWidth := (jsRound base.lineWidth : ℚ)
            key := base.key }) ∧
    (∀ (base : DrawBrush) (m1 m2 : DrawModifiers),
        m1.lineWidth = m2.lineWidth →
        (makeCustomBrush base m1).key = (makeCustomBrush base m2).key) ∧
    (∀ (base : DrawBrush) (m1 m2 : DrawModifiers) (w1 w2 : ℚ),
        m1.lineWidth = some w1 → m2.lineWidth = some w2 →
        w1 ≠ 0 → w2 ≠ 0 → w1 ≠ w2 →
        (makeCustomBrush base m1).key ≠ (makeCustomBrush base m2).key) := by
  refine ⟨?_, ?_, ?_, ?_⟩
  · intro base m w hw hw0
    simp [makeCustomBrush, jsOrNum, hw, hw0]
  · intro base m hw
    simp [makeCustomBrush, jsOrNum, hw]
  · intro base m1 m2 hw
    simp [makeCustomBrush, hw]
  · intro base m1 m2 w1 w2 hw1 hw2 h10 h20 hne heq
    simp only [makeCustomBrush, hw1, hw2, if_neg h10, if_neg h20] at heq
    exact hne (ratStr_injective (str_append_cancel_left heq))

/-- Concrete instance of C3: an override width of 6 on the red base brush
gives key `red6`, and width 8 gives a different key. -/
theorem makeCustomBrush_spec_witness :
    makeCustomBrush redBrush { lineWidth := some 6, hilite := false } =
      { color := redBrush.color
        opacity := (jsRound (redBrush.opacity * 10) : ℚ) / 10
        lineWidth := (jsRound (6 : ℚ) : ℚ)
        key := redBrush.key ++ ratStr 6 } ∧
    (makeCustomBrush redBrush { lineWidth := some 6, hilite := false }).key ≠
      (makeCustomBrush redBrush { lineWidth := some 8, hilite := false }).key :=
  ⟨makeCustomBrush_spec.1 redBrush _ 6 rfl (by decide),
   makeCustomBrush_spec.2.2.2 redBrush _ _ 6 8 rfl rfl (by decide) (by decide) (by decide)⟩

/-! ### C1 — the merge-margin rule -/

/-- C1: the shaft margin of a rendered arrow is 20/64 exactly when the
arrow's destination is the destination of more than one shape of the pass
and the shape is not the live one, and 10/64 otherwise; with three arrows
into one square and none live all get 20/64, and with one of them live the
live one gets 10/64 while the others keep 20/64. -/
theorem arrow_margin_rule :
    (∀ (st : State) (sc : SyncableShape),
        jsTruthyOpt sc.shape.customSvg = false →
        jsTruthyOpt sc.shape.dest = true →
        sc.shape.dest ≠ some sc.shape.orig →
        Element.margin
            (renderShape st sc st.drawable.brushes (passDests st.drawable) st.bounds) =
          some (if passDests st.drawable (sc.shape.dest.getD "") > 1 ∧ sc.current = false
                then (20 : ℚ)/64 else (10 : ℚ)/64)) ∧
    (mainEls stThreeArrows).map Element.margin =
      [some ((20 : ℚ)/64), some ((20 : ℚ)/64), some ((20 : ℚ)/64)] ∧
    (mainEls stTwoPlusLive).map Element.margin =
      [some ((20 : ℚ)/64), some ((20 : ℚ)/64), some ((10 : ℚ)/64)] := by
  refine ⟨?_, rfl, rfl⟩
  intro st sc hcustom hdest hne
  by_cases hgt : passDests st.drawable (sc.shape.dest.getD "") > 1 <;>
    cases hcur : sc.current <;>
      simp [renderShape, hcustom, hdest, hne, margin_setHash, renderRectangleArrow,
        arrowMargin, hgt, hcur, margin_arrowEl]

/-- Concrete instance of C1: the margin formula evaluated for the first of
the three merged arrows. -/
theorem arrow_margin_rule_witness :
    Element.margin
        (renderShape stThreeArrows scA1E4 stThreeArrows.drawable.brushes
          (passDests stThreeArrows.drawable) stThreeArrows.bounds) =
      some (if passDests stThreeArrows.drawable (scA1E4.shape.dest.getD "") > 1 ∧
                scA1E4.current = false
            then (20 : ℚ)/64 else (10 : ℚ)/64) :=
  arrow_margin_rule.1 stThreeArrows scA1E4 rfl rfl (by decide)

/-! ### C2 — idempotence of the render pass -/

/-- C2: when the aggregate hash of the pass equals the stored
previous-pass hash, `renderSvg` returns before mutating any scene node and
leaves the stored hash unchanged; consequently a second call with
unchanged shapes, current-shape state, orientation and bounds performs no
scene mutation. -/
theorem renderSvg_idempotent :
    (∀ (st : State) (cs : List DefElem),
        fullHash st.drawable st.bounds = st.drawable.prevSvgHash →
        renderSvg st cs = { prevSvgHash := st.drawable.prevSvgHash, update := none }) ∧
    (∀ (st : State) (cs cs2 : List DefElem),
        (renderSvg
            { st with drawable :=
                { st.drawable with prevSvgHash := (renderSvg st cs).prevSvgHash } }
            cs2).update = none) := by
  constructor
  · intro st cs h
    simp only [renderSvg, h, if_true]
  · intro st cs cs2
    have hfull : fullHash
        { st.drawable with prevSvgHash := (renderSvg st cs).prevSvgHash } st.bounds =
        fullHash st.drawable st.bounds := rfl
    simp only [renderSvg]
    rw [if_pos]
    exact hfull.trans (renderSvg_prevHash st cs).symm

/-- Concrete instance of C2: rendering an empty pass whose stored hash
already matches performs no mutation. -/
theorem renderSvg_idempotent_witness :
    renderSvg stEmpty [] = { prevSvgHash := stEmpty.drawable.prevSvgHash, update := none } :=
  renderSvg_idempotent.1 stEmpty [] rfl

/-! ### C10 — degenerate shapes still count towards merging -/

/-- C10: a shape whose destination equals its origin renders as a square
highlight, yet its destination still increments the arrow-destination
tally; one genuine arrow into e4 plus such a degenerate shape on e4 give
the square a tally of 2, the genuine non-live arrow the 20/64 merge
margin, and a different fingerprint than without the degenerate shape. -/
theorem degenerate_dest_counts :
    passDests stArrowPlusDegenerate.drawable "e4" = 2 ∧
    (mainEls stArrowPlusDegenerate).map Element.isSquare = [false, true] ∧
    (mainEls stArrowPlusDegenerate).map Element.margin = [some ((20 : ℚ)/64), none] ∧
    shapeHash (arrowShape "a1" "e4" "green") (passDests stArrowPlusDegenerate.drawable)
        false b512 ≠
      shapeHash (arrowShape "a1" "e4" "green") (passDests stArrowOnly.drawable)
        false b512 :=
  ⟨rfl, rfl, rfl, by decide⟩

/-! ### C9 — piece-carrying auto shapes are excluded -/

theorem renderShape_state_congr (st st' : State) (sc : SyncableShape)
    (br : DrawBrushes) (ad : String → ℕ) (b : Bounds)
    (h : st.orientation = st'.orientation) :
    renderShape st sc br ad b = renderShape st' sc br ad b := by
  simp [renderShape, h]

theorem pass_autoShapes_congr (d : Drawable) (A : List DrawShape)
    (h : A.filter (fun s => s.piece.isNone) =
      d.autoShapes.filter (fun s => s.piece.isNone)) :
    passTallyList { d with autoShapes := A } = passTallyList d ∧
    passDests { d with autoShapes := A } = passDests d ∧
    ∀ b, passSyncables { d with autoShapes := A } b = passSyncables d b := by
  have h1 : nonPieceAutoShapes { d with autoShapes := A } = nonPieceAutoShapes d := h
  have ht : passTallyList { d with autoShapes := A } = passTallyList d := by
    show d.shapes ++ nonPieceAutoShapes { d with autoShapes := A } ++ _ = _
    rw [h1]
    rfl
  have hd : passDests { d with autoShapes := A } = passDests d := by
    show arrowDests (passTallyList { d with autoShapes := A }) = _
    rw [ht]
    rfl
  refine ⟨ht, hd, fun b => ?_⟩
  show ((d.shapes ++ nonPieceAutoShapes { d with autoShapes := A }).map _) ++ _ = _
  rw [h1, hd]
  rfl

/-- C9: `renderSvg` excludes every auto shape that carries a piece from
the whole pass: the tally, the aggregate hash and the rendered element
lists equal those computed from the piece-free auto shapes alone, and
appending a piece-carrying auto shape changes nothing about the render. -/
theorem autoShapes_with_piece_excluded :
    (∀ st : State,
        passDests (withAutoShapes st.drawable
            (st.drawable.autoShapes.filter (fun s => s.piece.isNone))) =
          passDests st.drawable ∧
        fullHash (withAutoShapes st.drawable
            (st.drawable.autoShapes.filter (fun s => s.piece.isNone))) st.bounds =
          fullHash st.drawable st.bounds ∧
        mainEls (stateWithAutoShapes st
            (st.drawable.autoShapes.filter (fun s => s.piece.isNone))) = mainEls st ∧
        customEls (stateWithAutoShapes st
            (st.drawable.autoShapes.filter (fun s => s.piece.isNone))) = customEls st) ∧
    (∀ (st : State) (cs : List DefElem) (extra : DrawShape),
        extra.piece.isSome = true →
        renderSvg (stateWithAutoShapes st (st.drawable.autoShapes ++ [extra])) cs =
          renderSvg st cs) := by
  have core : ∀ (st : State) (A : List DrawShape),
      A.filter (fun s => s.piece.isNone) =
        st.drawable.autoShapes.filter (fun s => s.piece.isNone) →
      passDests (withAutoShapes st.drawable A) = passDests st.drawable ∧
      fullHash (withAutoShapes st.drawable A) st.bounds =
        fullHash st.drawable st.bounds ∧
      mainEls (stateWithAutoShapes st A) = mainEls st ∧
      customEls (stateWithAutoShapes st A) = customEls st := by
    intro st A hA
    obtain ⟨ht, hd, hs⟩ := pass_autoShapes_congr st.drawable A hA
    have hrs : ∀ (sc : SyncableShape) (br : DrawBrushes) (ad : String → ℕ) (b : Bounds),
        renderShape (stateWithAutoShapes st A) sc br ad b =
          renderShape st sc br ad b :=
      fun sc br ad b => renderShape_state_congr _ _ sc br ad b rfl
    refine ⟨hd, ?_, ?_, ?_⟩
    · show jsJoin ";" ((passSyncables { st.drawable with autoShapes := A } st.bounds).map _) = _
      rw [hs st.bounds]
      rfl
    · show ((passSyncables { st.drawable with autoShapes := A } st.bounds).filter _).map _ = _
      rw [hs st.bounds]
      show _ = ((passSyncables st.drawable st.bounds).filter _).map _
      have hd2 : passDests (stateWithAutoShapes st A).drawable = passDests st.drawable := hd
      rw [hd2]
      simp only [hrs]
      rfl
    · show ((passSyncables { st.drawable with autoShapes := A } st.bounds).filter _).map _ = _
      rw [hs st.bounds]
      show _ = ((passSyncables st.drawable st.bounds).filter _).map _
      have hd2 : passDests (stateWithAutoShapes st A).drawable = passDests st.drawable := hd
      rw [hd2]
      simp only [hrs]
      rfl
  constructor
  · intro st
    exact core st _ (by rw [List.filter_filter]; simp)
  · intro st cs extra hext
    have hA : (st.drawable.autoShapes ++ [extra]).filter (fun s => s.piece.isNone) =
        st.drawable.autoShapes.filter (fun s => s.piece.isNone) := by
      rw [List.filter_append]
      rcases hp : extra.piece with _ | p
      · rw [hp] at hext; simp at hext
      · simp [hp]
    obtain ⟨hd, hfull, hmain, hcustom⟩ := core st _ hA
    obtain ⟨ht, _, hs⟩ := pass_autoShapes_congr st.drawable _ hA
    simp only [renderSvg]
    rw [show fullHash (stateWithAutoShapes st (st.drawable.autoShapes ++ [extra])).drawable
          (stateWithAutoShapes st (st.drawable.autoShapes ++ [extra])).bounds =
          fullHash st.drawable st.bounds from hfull]
    rw [show (stateWithAutoShapes st (st.drawable.autoShapes ++ [extra])).drawable.prevSvgHash =
          st.drawable.prevSvgHash from rfl]
    by_cases hh : fullHash st.drawable st.bounds = st.drawable.prevSvgHash
    · rw [if_pos hh, if_pos hh]
    · rw [if_neg hh, if_neg hh]
      have hdefs : syncDefs (stateWithAutoShapes st (st.drawable.autoShapes ++ [extra])).drawable
          (passSyncables (stateWithAutoShapes st (st.drawable.autoShapes ++ [extra])).drawable
            (stateWithAutoShapes st (st.drawable.autoShapes ++ [extra])).bounds) cs =
          syncDefs st.drawable (passSyncables st.drawable st.bounds) cs := by
        show syncDefs { st.drawable with autoShapes := _ }
          (passSyncables { st.drawable with autoShapes := _ } st.bounds) cs = _
        rw [hs st.bounds]
        rfl
      rw [hdefs]
      have hm : mainEls (stateWithAutoShapes st (st.drawable.autoShapes ++ [extra])) =
          mainEls st := hmain
      have hc : customEls (stateWithAutoShapes st (st.drawable.autoShapes ++ [extra])) =
          customEls st := hcustom
      rw [hm, hc]

/-- Concrete instance of C9: appending a piece-carrying auto shape to an
empty pass changes nothing. -/
theorem autoShapes_with_piece_excluded_witness :
    renderSvg (stateWithAutoShapes stEmpty (stEmpty.drawable.autoShapes ++ [pieceAutoShape])) [] =
      renderSvg stEmpty [] :=
  autoShapes_with_piece_excluded.2 stEmpty [] pieceAutoShape rfl

/-! ### C4 and C7 — the definitions pool -/

theorem mapSet_any_iff (m : List (String × DrawBrush)) (k : String) :
    (m.any (fun p => p.1 == k)) = true ↔ k ∈ m.map Prod.fst := by
  simp [List.any_eq_true, List.mem_map]

theorem mapSet_keys (m : List (String × DrawBrush)) (k : String) (v : DrawBrush) :
    (mapSet m k v).map Prod.fst =
      if k ∈ m.map Prod.fst then m.map Prod.fst else m.map Prod.fst ++ [k] := by
  unfold mapSet
  by_cases hk : k ∈ m.map Prod.fst
  · rw [if_pos ((mapSet_any_iff m k).2 hk), if_pos hk]
    rw [List.map_map]
    apply List.map_congr_left
    intro p _
    by_cases hp : p.1 = k
    · simp [hp]
    · simp [hp]
  · rw [if_neg (fun hc => hk ((mapSet_any_iff m k).1 hc)), if_neg hk]
    simp

theorem mem_keys_mapSet {m : List (String × DrawBrush)} {k k' : String} {v : DrawBrush} :
    k' ∈ (mapSet m k v).map Prod.fst ↔ k' ∈ m.map Prod.fst ∨ k' = k := by
  rw [mapSet_keys]
  by_cases hk : k ∈ m.map Prod.fst
  · rw [if_pos hk]
    constructor
    · exact Or.inl
    · rintro (h | rfl)
      · exact h
      · exact hk
  · rw [if_neg hk]
    simp

theorem mapSet_keys_nodup {m : List (String × DrawBrush)} {k : String} {v : DrawBrush}
    (h : (m.map Prod.fst).Nodup) : ((mapSet m k v).map Prod.fst).Nodup := by
  rw [mapSet_keys]
  by_cases hk : k ∈ m.map Prod.fst
  · rw [if_pos hk]; exact h
  · rw [if_neg hk]
    rw [List.nodup_append]
    refine ⟨h, List.nodup_singleton _, ?_⟩
    intro a ha hak
    rw [List.mem_singleton] at hak
    exact hk (hak ▸ ha)

theorem mapSet_prop {P : String × DrawBrush → Prop} {m : List (String × DrawBrush)}
    {k : String} {v : DrawBrush} (hm : ∀ p ∈ m, P p) (hkv : P (k, v)) :
    ∀ p ∈ mapSet m k v, P p := by
  intro p hp
  unfold mapSet at hp
  split at hp
  · rw [List.mem_map] at hp
    obtain ⟨q, hq, rfl⟩ := hp
    by_cases hq1 : q.1 = k
    · simpa [hq1] using hkv
    · simpa [hq1] using hm q hq
  · rcases List.mem_append.1 hp with hp | hp
    · exact hm p hp
    · simpa using (List.mem_singleton.1 hp) ▸ hkv

theorem requiredBrushes_invariant (d : Drawable) (shapes : List SyncableShape) :
    ((requiredBrushes d shapes).map Prod.fst).Nodup ∧
      ∀ p ∈ requiredBrushes d shapes, p.2.key = p.1 := by
  have aux : ∀ (l : List SyncableShape) (m : List (String × DrawBrush)),
      (m.map Prod.fst).Nodup → (∀ p ∈ m, p.2.key = p.1) →
      ((l.foldl
          (fun m s =>
            if jsTruthyOpt s.shape.dest then
              let brush : DrawBrush :=
                match s.shape.modifiers with
                | some mo => makeCustomBrush (d.brushes s.shape.brush) mo
                | none => d.brushes s.shape.brush
              let m := if hiliteOf s.shape.modifiers then mapSet m "hilite" hiliteBrush else m
              mapSet m brush.key brush
            else m) m).map Prod.fst).Nodup ∧
        ∀ p ∈ l.foldl
          (fun m s =>
            if jsTruthyOpt s.shape.dest then
              let brush : DrawBrush :=
                match s.shape.modifiers with
                | some mo => makeCustomBrush (d.brushes s.shape.brush) mo
                | none => d.brushes s.shape.brush
              let m := if hiliteOf s.shape.modifiers then mapSet m "hilite" hiliteBrush else m
              mapSet m brush.key brush
            else m) m, p.2.key = p.1 := by
    intro l
    induction l with
    | nil => intro m h1 h2; exact ⟨h1, h2⟩
    | cons s t iht =>
      intro m h1 h2
      simp only [List.foldl_cons]
      apply iht
      · split
        · apply mapSet_keys_nodup
          split
          · exact mapSet_keys_nodup h1
          · exact h1
        · exact h1
      · split
        · apply mapSet_prop
          · split
            · exact mapSet_prop h2 rfl
            · exact h2
          · rfl
        · exact h2
  exact aux shapes [] (by simp) (by simp)

theorem requiredBrushes_hilite_mem (d : Drawable) (shapes : List SyncableShape)
    (sc : SyncableShape) (hmem : sc ∈ shapes)
    (hdest : jsTruthyOpt sc.shape.dest = true)
    (hhil : hiliteOf sc.shape.modifiers = true) :
    "hilite" ∈ (requiredBrushes d shapes).map Prod.fst := by
  have mono : ∀ (l : List SyncableShape) (m : List (String × DrawBrush)),
      "hilite" ∈ m.map Prod.fst →
      "hilite" ∈ ((l.foldl
        (fun m s =>
          if jsTruthyOpt s.shape.dest then
            let brush : DrawBrush :=
              match s.shape.modifiers with
              | some mo => makeCustomBrush (d.brushes s.shape.brush) mo
              | none => d.brushes s.shape.brush
            let m := if hiliteOf s.shape.modifiers then mapSet m "hilite" hiliteBrush else m
            mapSet m brush.key brush
          else m) m).map Prod.fst) := by
    intro l
    induction l with
    | nil => intro m h; exact h
    | cons s t iht =>
      intro m h
      simp only [List.foldl_cons]
      apply iht
      split
      · apply mem_keys_mapSet.2
        left
        split
        · exact mem_keys_mapSet.2 (Or.inl h)
        · exact h
      · exact h
  have step : ∀ (l : List SyncableShape) (m : List (String × DrawBrush)),
      sc ∈ l →
      "hilite" ∈ ((l.foldl
        (fun m s =>
          if jsTruthyOpt s.shape.dest then
            let brush : DrawBrush :=
              match s.shape.modifiers with
              | some mo => makeCustomBrush (d.brushes s.shape.brush) mo
              | none => d.brushes s.shape.brush
            let m := if hiliteOf s.shape.modifiers then mapSet m "hilite" hiliteBrush else m
            mapSet m brush.key brush
          else m) m).map Prod.fst) := by
    intro l
    induction l with
    | nil => intro m h; exact absurd h (List.not_mem_nil sc)
    | cons s t iht =>
      intro m h
      rcases List.mem_cons.1 h with rfl | h
      · simp only [List.foldl_cons]
        apply mono
        rw [if_pos hdest, hhil, if_pos rfl]
        exact mem_keys_mapSet.2 (Or.inl (mem_keys_mapSet.2 (Or.inr rfl)))
      · simp only [List.foldl_cons]
        exact iht _ h
  exact step shapes [] hmem

theorem appendedDefs_foldl_acc (dom : List (Option String)) :
    ∀ (req : List (String × DrawBrush)) (acc : List DefElem),
      req.foldl
          (fun acc kb =>
            if some kb.1 ∈ dom then acc
            else acc ++ [renderMarker kb.2, renderLinearOpacityGradient kb.2]) acc =
        acc ++ appendedDefs req dom := by
  intro req
  induction req with
  | nil => intro acc; simp [appendedDefs]
  | cons a t iht =>
    intro acc
    simp only [List.foldl_cons, appendedDefs]
    rw [iht, iht]
    split
    · rfl
    · simp

theorem appendedDefs_cons (a : String × DrawBrush) (req : List (String × DrawBrush))
    (dom : List (Option String)) :
    appendedDefs (a :: req) dom =
      (if some a.1 ∈ dom then []
       else [renderMarker a.2, renderLinearOpacityGradient a.2]) ++ appendedDefs req dom := by
  show List.foldl _ _ (a :: req) = _
  rw [List.foldl_cons, appendedDefs_foldl_acc]
  split
  · simp
  · simp

theorem filter_length_append (f : DefElem → Bool) (l1 l2 : List DefElem) :
    ((l1 ++ l2).filter f).length = (l1.filter f).length + (l2.filter f).length := by
  rw [List.filter_append, List.length_append]

/-- Counting elements produced by the append loop of `syncDefs`: when the
block counter picks out exactly the elements for key `k`, the loop appends
exactly one such element per required missing key. -/
theorem appendedDefs_count_generic (f : DefElem → Bool) (k : String)
    (hblock : ∀ b : DrawBrush,
      (([renderMarker b, renderLinearOpacityGradient b]).filter f).length =
        if b.key = k then 1 else 0) :
    ∀ (req : List (String × DrawBrush)) (dom : List (Option String)),
      ((req.map Prod.fst).Nodup) → (∀ p ∈ req, p.2.key = p.1) →
      ((appendedDefs req dom).filter f).length =
        if k ∈ req.map Prod.fst ∧ some k ∉ dom then 1 else 0 := by
  intro req
  induction req with
  | nil =>
    intro dom _ _
    simp [appendedDefs]
  | cons a t iht =>
    intro dom hnodup hkeys
    rw [appendedDefs_cons, filter_length_append]
    have hnodup' : ((t.map Prod.fst).Nodup) := by
      simp only [List.map_cons, List.nodup_cons] at hnodup
      exact hnodup.2
    have hanot : a.1 ∉ t.map Prod.fst := by
      simp only [List.map_cons, List.nodup_cons] at hnodup
      exact hnodup.1
    have hkeys' : ∀ p ∈ t, p.2.key = p.1 := fun p hp => hkeys p (List.mem_cons_of_mem a hp)
    have hakey : a.2.key = a.1 := hkeys a (List.mem_cons.2 (Or.inl rfl))
    rw [iht dom hnodup' hkeys']
    rcases eq_or_ne k a.1 with hka | hka
    · have htf : k ∉ t.map Prod.fst := by rw [hka]; exact hanot
      by_cases hdom : some a.1 ∈ dom
      · rw [if_pos hdom]
        have hdomk : some k ∈ dom := by rw [hka]; exact hdom
        simp [htf, hdomk]
      · rw [if_neg hdom, hblock a.2, if_pos (by rw [hakey, ← hka])]
        have hdomk : some k ∉ dom := by rw [hka]; exact hdom
        simp [htf, hdomk, hdom, hka]
        intro x hx
        exact htf (by rw [hka]; exact List.mem_map.2 ⟨(a.1, x), hx, rfl⟩)
    · have hcond : (k ∈ List.map Prod.fst (a :: t) ∧ some k ∉ dom) ↔
          (k ∈ List.map Prod.fst t ∧ some k ∉ dom) := by
        rw [List.map_cons]
        constructor
        · rintro ⟨h1, h2⟩
          rcases List.mem_cons.1 h1 with h1 | h1
          · exact absurd h1 hka
          · exact ⟨h1, h2⟩
        · rintro ⟨h1, h2⟩
          exact ⟨List.mem_cons_of_mem _ h1, h2⟩
      by_cases hdom2 : some a.1 ∈ dom
      · rw [if_pos hdom2, if_congr hcond rfl rfl]
        simp
      · rw [if_neg hdom2, hblock a.2,
          if_neg (fun hc : a.2.key = k => hka (hc.symm.trans hakey)),
          if_congr hcond rfl rfl]
        simp

theorem marker_block_count (k : String) (b : DrawBrush) :
    (([renderMarker b, renderLinearOpacityGradient b]).filter
      (fun e => decide (cgKeyAttr e = some k))).length = if b.key = k then 1 else 0 := by
  by_cases h : b.key = k
  · simp [renderMarker, renderLinearOpacityGradient, cgKeyAttr, h]
  · simp [renderMarker, renderLinearOpacityGradient, cgKeyAttr, h]

theorem gradient_block_count (k : String) (b : DrawBrush) :
    (([renderMarker b, renderLinearOpacityGradient b]).filter
      (fun e =>
        match e with
        | .gradient g => decide (g.id = "linearOpacityGradient-" ++ k)
        | .marker _ => false)).length = if b.key = k then 1 else 0 := by
  by_cases h : b.key = k
  · simp [renderMarker, renderLinearOpacityGradient, h]
  · have hne : "linearOpacityGradient-" ++ b.key ≠ "linearOpacityGradient-" ++ k :=
      fun hc => h (str_append_cancel_left hc)
    simp [renderMarker, renderLinearOpacityGradient, hne]
    rw [if_neg h]

/-- C4: `syncDefs` never removes or replaces an existing pool child, and
for every required brush key not yet tagged in the pool it appends exactly
one arrowhead marker (tagged `cgKey = key`) and one opacity gradient
(identified by its `id`) — zero when the key is already present; any
number of destination-carrying shapes sharing one unmodified brush
require exactly one key. -/
theorem syncDefs_append_only_dedup :
    ∀ (d : Drawable) (shapes : List SyncableShape) (cs : List DefElem),
      (∃ rest, syncDefs d shapes cs = cs ++ rest) ∧
      (∀ k : String,
          countMarker k (appendedDefs (requiredBrushes d shapes) (cs.map cgKeyAttr)) =
            if k ∈ (requiredBrushes d shapes).map Prod.fst ∧ some k ∉ cs.map cgKeyAttr
            then 1 else 0) ∧
      (∀ k : String,
          countGradient k (appendedDefs (requiredBrushes d shapes) (cs.map cgKeyAttr)) =
            if k ∈ (requiredBrushes d shapes).map Prod.fst ∧ some k ∉ cs.map cgKeyAttr
            then 1 else 0) ∧
      (∀ (bn : String) (l : List SyncableShape), l ≠ [] →
          (∀ sc ∈ l, sc.shape.brush = bn ∧ sc.shape.modifiers = none ∧
            jsTruthyOpt sc.shape.dest = true) →
          requiredBrushes d l = [((d.brushes bn).key, d.brushes bn)]) := by
  intro d shapes cs
  obtain ⟨hnodup, hkeys⟩ := requiredBrushes_invariant d shapes
  refine ⟨⟨appendedDefs (requiredBrushes d shapes) (cs.map cgKeyAttr), rfl⟩, ?_, ?_, ?_⟩
  · intro k
    exact appendedDefs_count_generic _ k (marker_block_count k) _ _ hnodup hkeys
  · intro k
    exact appendedDefs_count_generic _ k (gradient_block_count k) _ _ hnodup hkeys
  · intro bn l hne hall
    have hstep : ∀ (m : List (String × DrawBrush)) (s : SyncableShape),
        s.shape.brush = bn → s.shape.modifiers = none →
        jsTruthyOpt s.shape.dest = true →
        (if jsTruthyOpt s.shape.dest then
            let brush : DrawBrush :=
              match s.shape.modifiers with
              | some mo => makeCustomBrush (d.brushes s.shape.brush) mo
              | none => d.brushes s.shape.brush
            let m2 := if hiliteOf s.shape.modifiers then mapSet m "hilite" hiliteBrush else m
            mapSet m2 brush.key brush
          else m) = mapSet m ((d.brushes bn).key) (d.brushes bn) := by
      intro m s hb hm hd2
      simp [hd2, hm, hb, hiliteOf]
    have hstable : ∀ (t : List SyncableShape),
        (∀ sc ∈ t, sc.shape.brush = bn ∧ sc.shape.modifiers = none ∧
          jsTruthyOpt sc.shape.dest = true) →
        t.foldl
          (fun m s =>
            if jsTruthyOpt s.shape.dest then
              let brush : DrawBrush :=
                match s.shape.modifiers with
                | some mo => makeCustomBrush (d.brushes s.shape.brush) mo
                | none => d.brushes s.shape.brush
              let m := if hiliteOf s.shape.modifiers then mapSet m "hilite" hiliteBrush else m
              mapSet m brush.key brush
            else m) [((d.brushes bn).key, d.brushes bn)] =
          [((d.brushes bn).key, d.brushes bn)] := by
      intro t
      induction t with
      | nil => intro _; rfl
      | cons s u ihu =>
        intro hall2
        obtain ⟨hb, hm, hd2⟩ := hall2 s (List.mem_cons.2 (Or.inl rfl))
        rw [List.foldl_cons, hstep _ s hb hm hd2]
        rw [show mapSet [((d.brushes bn).key, d.brushes bn)] (d.brushes bn).key
              (d.brushes bn) = [((d.brushes bn).key, d.brushes bn)] by simp [mapSet]]
        exact ihu (fun sc hsc => hall2 sc (List.mem_cons_of_mem s hsc))
    rcases l with _ | ⟨a, t⟩
    · exact absurd rfl hne
    · obtain ⟨hb, hm, hd2⟩ := hall a (List.mem_cons.2 (Or.inl rfl))
      show List.foldl _ [] (a :: t) = _
      rw [List.foldl_cons, hstep [] a hb hm hd2]
      rw [show mapSet [] ((d.brushes bn).key) (d.brushes bn) =
            [((d.brushes bn).key, d.brushes bn)] by simp [mapSet]]
      exact hstable t (fun sc hsc => hall sc (List.mem_cons_of_mem a hsc))

/-- Concrete instance of C4: a single green arrow with no modifiers
requires exactly the one catalog entry for `green`. -/
theorem syncDefs_append_only_dedup_witness :
    requiredBrushes stThreeArrows.drawable [scA1E4] =
      [((stThreeArrows.drawable.brushes "green").key, stThreeArrows.drawable.brushes "green")] :=
  (syncDefs_append_only_dedup stThreeArrows.drawable [] []).2.2.2 "green" [scA1E4]
    (by simp) (by decide)

/-- C7 (counterexample to the claim as stated): a shape that requests the
hilite modifier but carries no destination does not cause the synthetic
hilite brush to be ensured — `syncDefs` leaves the pool empty. -/
theorem hilite_without_dest_not_ensured :
    hiliteOf scHiliteNoDest.shape.modifiers = true ∧
    syncDefs stEmpty.drawable [scHiliteNoDest] [] = [] :=
  ⟨rfl, rfl⟩

/-- C7 (amended): whenever a destination-carrying shape of the pass
requests the hilite modifier, the definitions pool contains, after
`syncDefs`, an element tagged with key `hilite` (the synthetic hilite
brush resource). -/
theorem hilite_ensured_for_dest_shapes :
    ∀ (d : Drawable) (shapes : List SyncableShape) (cs : List DefElem),
      (∃ sc ∈ shapes, jsTruthyOpt sc.shape.dest = true ∧
        hiliteOf sc.shape.modifiers = true) →
      ∃ e ∈ syncDefs d shapes cs, cgKeyAttr e = some "hilite" := by
  intro d shapes cs ⟨sc, hmem, hdest, hhil⟩
  have hkey := requiredBrushes_hilite_mem d shapes sc hmem hdest hhil
  by_cases hdom : some "hilite" ∈ cs.map cgKeyAttr
  · obtain ⟨e, he, heq⟩ := List.mem_map.1 hdom
    exact ⟨e, List.mem_append.2 (Or.inl he), heq⟩
  · obtain ⟨hnodup, hkeys⟩ := requiredBrushes_invariant d shapes
    have hcount := appendedDefs_count_generic
      (fun e => decide (cgKeyAttr e = some "hilite")) "hilite"
      (marker_block_count "hilite") (requiredBrushes d shapes) (cs.map cgKeyAttr)
      hnodup hkeys
    rw [if_pos ⟨hkey, hdom⟩] at hcount
    have hpos : 0 < ((appendedDefs (requiredBrushes d shapes) (cs.map cgKeyAttr)).filter
        (fun e => decide (cgKeyAttr e = some "hilite"))).length := by
      rw [hcount]; omega
    rw [List.length_pos] at hpos
    obtain ⟨e, he⟩ := List.exists_mem_of_ne_nil _ hpos
    have hf := List.mem_filter.1 he
    exact ⟨e, List.mem_append.2 (Or.inr hf.1), of_decide_eq_true hf.2⟩

/-- Concrete instance of C7 (amended): one destination-carrying hilite
shape makes the pool contain the hilite-tagged marker. -/
theorem hilite_ensured_for_dest_shapes_witness :
    ∃ e ∈ syncDefs stEmpty.drawable [scHiliteWithDest] [], cgKeyAttr e = some "hilite" :=
  hilite_ensured_for_dest_shapes stEmpty.drawable [scHiliteWithDest] []
    ⟨scHiliteWithDest, by simp, rfl, rfl⟩

/-! ### C5 — fingerprint structure and sensitivity -/

theorem ratStr_chars (q : ℚ) :
    ∀ c ∈ (ratStr q).data, c.toNat = 45 ∨ c.toNat = 47 ∨ (48 ≤ c.toNat ∧ c.toNat ≤ 57) := by
  intro c hc
  simp only [ratStr, String.data_append] at hc
  rcases List.mem_append.1 hc with hc | hc
  · rcases intStr_chars q.num c hc with h | h
    · exact Or.inl h
    · exact Or.inr (Or.inr h)
  · split at hc
    · simp at hc
    · rw [String.data_append, show ("/" : String).data = ['/'] from rfl] at hc
      rcases List.mem_append.1 hc with hc | hc
      · rw [List.mem_singleton] at hc
        rw [hc]
        exact Or.inr (Or.inl rfl)
      · exact Or.inr (Or.inr (natStr_chars q.den c hc))

theorem ratStr_no_comma (q : ℚ) : ∀ c ∈ (ratStr q).data, c ≠ ',' := by
  intro c hc heq
  rcases ratStr_chars q c hc with h | h | h <;>
    · rw [heq] at h
      revert h
      decide

theorem ratStr_ne_true (q : ℚ) : ratStr q ≠ "true" := by
  intro h
  have : 't' ∈ (ratStr q).data := by rw [h]; decide
  rcases ratStr_chars q 't' this with hh | hh | hh <;> revert hh <;> decide

theorem strEntry_inj {s1 s2 : String} (h : strEntry s1 = strEntry s2) : s1 = s2 := by
  unfold strEntry at h
  split at h <;> split at h <;> simp_all

theorem numEntry_inj {q1 q2 : ℚ} (h : numEntry q1 = numEntry q2) : q1 = q2 := by
  unfold numEntry at h
  split at h <;> split at h <;> simp_all
  exact ratStr_injective h

theorem strEntry_ne_empty (s : String) : ∀ v ∈ strEntry s, v ≠ "" := by
  unfold strEntry
  split
  · simp
  · rename_i h
    intro v hv
    rw [Option.mem_def, Option.some.injEq] at hv
    rw [← hv]
    exact h

theorem numEntry_ne_empty (q : ℚ) : ∀ v ∈ numEntry q, v ≠ "" := by
  unfold numEntry
  split
  · simp
  · intro v hv
    rw [Option.mem_def, Option.some.injEq] at hv
    rw [← hv]
    exact ratStr_ne_empty q

theorem boolEntry_ne_empty (b : Bool) : ∀ v ∈ boolEntry b, v ≠ "" := by
  unfold boolEntry
  split <;> simp

theorem destEntry_ne_empty (o : Option String) : ∀ v ∈ destEntry o, v ≠ "" := by
  unfold destEntry
  split
  · exact strEntry_ne_empty _
  · simp

theorem pieceEntry_ne_empty (o : Option DrawShapePiece) : ∀ v ∈ pieceEntry o, v ≠ "" := by
  unfold pieceEntry
  split
  · exact strEntry_ne_empty _
  · simp

theorem modEntry_ne_empty (o : Option DrawModifiers) : ∀ v ∈ modEntry o, v ≠ "" := by
  unfold modEntry
  split
  · exact strEntry_ne_empty _
  · simp

theorem customEntry_ne_empty (o : Option String) : ∀ v ∈ customEntry o, v ≠ "" := by
  unfold customEntry
  split
  · split
    · simp
    · exact strEntry_ne_empty _
  · simp

theorem filterMap_id_cons (a : Option String) (l : List (Option String)) :
    List.filterMap id (a :: l) = a.toList ++ List.filterMap id l := by
  cases a <;> simp

/-- Changing exactly one entry of a hash-entry list (the surrounding
entries staying fixed) changes the joined hash, provided present entries
are nonempty. -/
theorem shapeHash_slot_ne (pre post : List (Option String)) {o1 o2 : Option String}
    (h1 : ∀ v ∈ o1, v ≠ "") (h2 : ∀ v ∈ o2, v ≠ "") (hne : o1 ≠ o2) :
    jsJoin "," ((pre ++ o1 :: post).filterMap id) ≠
      jsJoin "," ((pre ++ o2 :: post).filterMap id) := by
  intro heq
  apply hne
  rw [List.filterMap_append, List.filterMap_append, filterMap_id_cons,
    filterMap_id_cons] at heq
  exact jsJoin_slot_inj "," (pre.filterMap id) (post.filterMap id) h1 h2
    (by simpa [List.append_assoc] using heq)

theorem jsJoin_len_comma :
    ∀ l : List String, l ≠ [] →
      (jsJoin "," l).length + 1 = (l.map (fun s => 1 + s.length)).sum := by
  intro l
  induction l with
  | nil => intro h; exact absurd rfl h
  | cons x t iht =>
    intro _
    cases t with
    | nil => simp [jsJoin]; omega
    | cons y u =>
      rw [jsJoin_cons_ne "," x (by simp), String.length_append, String.length_append,
        show ("," : String).length = 1 from rfl, List.map_cons, List.sum_cons]
      have := iht (by simp)
      omega

theorem jsJoin_len_bounds (l : List String) :
    (jsJoin "," l).length ≤ (l.map (fun s => 1 + s.length)).sum ∧
      (l.map (fun s => 1 + s.length)).sum ≤ (jsJoin "," l).length + 1 := by
  cases l with
  | nil => simp [jsJoin]
  | cons x t =>
    have := jsJoin_len_comma (x :: t) (by simp)
    omega

/-- Inserting a nonempty component (plus possibly more components) into a
comma-joined list strictly grows its length. -/
theorem jsJoin_length_ne_insert (P B S R : List String) (v : String) (hv : v.length ≠ 0) :
    (jsJoin "," (P ++ [v] ++ B ++ S ++ R)).length ≠ (jsJoin "," (P ++ B ++ R)).length := by
  have h1 := jsJoin_len_bounds (P ++ [v] ++ B ++ S ++ R)
  have h2 := jsJoin_len_bounds (P ++ B ++ R)
  simp only [List.map_append, List.sum_append, List.map_cons, List.sum_cons,
    List.map_nil, List.sum_nil] at h1 h2
  omega

theorem modifiersHash_eq_norm (m : DrawModifiers) :
    modifiersHash m =
      (match modNorm (some m) with
       | (some w, true) => ratStr w ++ ",true"
       | (some w, false) => ratStr w
       | (none, true) => "true"
       | (none, false) => "") := by
  rcases hlw : m.lineWidth with _ | w
  · cases hh : m.hilite <;>
      simp [modifiersHash, modNorm, optNumEntry, boolEntry, hlw, hh, jsJoin]
  · by_cases hz : w = 0
    · cases hh : m.hilite <;>
        simp [modifiersHash, modNorm, optNumEntry, numEntry, boolEntry, hlw, hh, hz, jsJoin]
    · cases hh : m.hilite <;>
        simp only [modifiersHash, modNorm, optNumEntry, numEntry, boolEntry, hlw, hh, hz,
          if_false, if_true, List.filterMap, jsJoin, Option.some.injEq, ite_false,
          ite_true]
      all_goals
        first
          | rfl
          | (apply String.ext; simp [String.data_append])

theorem string_append_ne_empty_right (a b : String) (hb : b ≠ "") : a ++ b ≠ "" := by
  intro hc
  apply hb
  have hdata := congrArg String.data hc
  rw [String.data_append] at hdata
  exact String.ext (List.append_eq_nil.mp hdata).2

theorem modEntry_eq_norm (o : Option DrawModifiers) :
    modEntry o =
      (match modNorm o with
       | (some w, true) => some (ratStr w ++ ",true")
       | (some w, false) => some (ratStr w)
       | (none, true) => some "true"
       | (none, false) => none) := by
  rcases o with _ | m
  · rfl
  · show strEntry (modifiersHash m) = _
    rw [modifiersHash_eq_norm]
    rcases hn : modNorm (some m) with ⟨ow, b⟩
    rcases ow with _ | w <;> cases b
    · simp [strEntry]
    · simp only [strEntry]
      rw [if_neg (by decide)]
    · simp only [strEntry]
      rw [if_neg (ratStr_ne_empty w)]
    · simp only [strEntry]
      rw [if_neg (string_append_ne_empty_right _ _ (by decide))]

theorem comma_mem_append_str (a : String) (t : String) :
    ',' ∈ (a ++ "," ++ t).data := by
  rw [String.data_append, String.data_append, show ("," : String).data = [','] from rfl]
  simp

theorem ratStr_append_true_inj {w1 w2 : ℚ}
    (h : ratStr w1 ++ ",true" = ratStr w2 ++ ",true") : w1 = w2 := by
  exact ratStr_injective (str_append_cancel_right h)

theorem ratStr_append_true_ne_ratStr (w1 w2 : ℚ) :
    ratStr w1 ++ ",true" ≠ ratStr w2 := by
  intro hc
  have hmem : ',' ∈ (ratStr w2).data := by
    rw [← hc, String.data_append]
    rw [show (",true" : String).data = [',', 't', 'r', 'u', 'e'] from rfl]
    simp
  exact ratStr_no_comma w2 ',' hmem rfl

theorem ratStr_append_true_ne_true (w : ℚ) : ratStr w ++ ",true" ≠ "true" := by
  intro hc
  have hmem : ',' ∈ ("true" : String).data := by
    rw [← hc, String.data_append]
    rw [show (",true" : String).data = [',', 't', 'r', 'u', 'e'] from rfl]
    simp
  revert hmem
  decide

theorem modEntry_inj_norm {o1 o2 : Option DrawModifiers}
    (h : modEntry o1 = modEntry o2) : modNorm o1 = modNorm o2 := by
  rw [modEntry_eq_norm, modEntry_eq_norm] at h
  rcases hn1 : modNorm o1 with ⟨ow1, b1⟩
  rcases hn2 : modNorm o2 with ⟨ow2, b2⟩
  rw [hn1, hn2] at h
  rcases ow1 with _ | w1 <;> rcases ow2 with _ | w2 <;> cases b1 <;> cases b2
  · rfl
  · simp at h
  · simp at h
  · rfl
  · simp at h
  · simp at h
  · exact absurd (Option.some.inj h).symm (ratStr_ne_true w2)
  · exact absurd (Option.some.inj h).symm (ratStr_append_true_ne_true w2)
  · simp at h
  · exact absurd (Option.some.inj h) (ratStr_ne_true w1)
  · simp at h
  · exact absurd (Option.some.inj h) (ratStr_append_true_ne_true w1)
  · rw [ratStr_injective (Option.some.inj h)]
  · exact absurd (Option.some.inj h).symm (ratStr_append_true_ne_ratStr w2 w1)
  · exact absurd (Option.some.inj h) (ratStr_append_true_ne_ratStr w1 w2)
  · rw [ratStr_append_true_inj (Option.some.inj h)]

theorem join_head_middle_ne (P M1 M2 : List String) (v1 v2 : String)
    (hv1 : ∀ c ∈ v1.data, c ≠ ',') (hv2 : ∀ c ∈ v2.data, c ≠ ',')
    (hne : v1 ≠ v2) :
    jsJoin "," (P ++ v1 :: M1) ≠ jsJoin "," (P ++ v2 :: M2) := fun heq =>
  hne (jsJoin_head_inj hv1 hv2 (jsJoin_append_cancel "," (by simp) (by simp) heq))

/-- C5 (counterexample): two shapes that differ only in their custom
markup hash identically, because the 32-bit rolling sub-hashes of `"Aa"`
and `"BB"` collide (both are 2112). -/
theorem custom_content_collision :
    shapeCustomAa.customSvg ≠ shapeCustomBB.customSvg ∧
    shapeHash shapeCustomAa (passDests stEmpty.drawable) false b512 =
      shapeHash shapeCustomBB (passDests stEmpty.drawable) false b512 :=
  ⟨by decide, rfl⟩

theorem width_sensitivity (s : DrawShape) (dests : String → ℕ) (cur : Bool)
    (b1 b2 : Bounds) (hw : b1.width ≠ b2.width) (hh : b1.height = b2.height) :
    shapeHash s dests cur b1 ≠ shapeHash s dests cur b2 := by
  rcases b1 with ⟨w1, h1⟩
  rcases b2 with ⟨w2, h2⟩
  simp only at hw hh
  subst hh
  exact shapeHash_slot_ne []
    [numEntry h1, boolEntry cur, strEntry s.orig, destEntry s.dest, strEntry s.brush,
     boolEntry (jsTruthyOpt s.dest && decide (dests (s.dest.getD "") > 1)),
     pieceEntry s.piece, modEntry s.modifiers, customEntry s.customSvg]
    (numEntry_ne_empty _) (numEntry_ne_empty _) (fun hc => hw (numEntry_inj hc))

theorem height_sensitivity (s : DrawShape) (dests : String → ℕ) (cur : Bool)
    (b1 b2 : Bounds) (hh : b1.height ≠ b2.height) (hw : b1.width = b2.width) :
    shapeHash s dests cur b1 ≠ shapeHash s dests cur b2 := by
  rcases b1 with ⟨w1, h1⟩
  rcases b2 with ⟨w2, h2⟩
  simp only at hw hh
  subst hw
  exact shapeHash_slot_ne [numEntry w1]
    [boolEntry cur, strEntry s.orig, destEntry s.dest, strEntry s.brush,
     boolEntry (jsTruthyOpt s.dest && decide (dests (s.dest.getD "") > 1)),
     pieceEntry s.piece, modEntry s.modifiers, customEntry s.customSvg]
    (numEntry_ne_empty _) (numEntry_ne_empty _) (fun hc => hh (numEntry_inj hc))

theorem live_flag_sensitivity (s : DrawShape) (dests : String → ℕ) (b : Bounds) :
    shapeHash s dests true b ≠ shapeHash s dests false b :=
  shapeHash_slot_ne [numEntry b.width, numEntry b.height]
    [strEntry s.orig, destEntry s.dest, strEntry s.brush,
     boolEntry (jsTruthyOpt s.dest && decide (dests (s.dest.getD "") > 1)),
     pieceEntry s.piece, modEntry s.modifiers, customEntry s.customSvg]
    (boolEntry_ne_empty _) (boolEntry_ne_empty _) (by decide)

theorem orig_sensitivity (s : DrawShape) (dests : String → ℕ) (cur : Bool)
    (b : Bounds) (o2 : String) (ho : s.orig ≠ o2) :
    shapeHash s dests cur b ≠ shapeHash { s with orig := o2 } dests cur b :=
  shapeHash_slot_ne [numEntry b.width, numEntry b.height, boolEntry cur]
    [destEntry s.dest, strEntry s.brush,
     boolEntry (jsTruthyOpt s.dest && decide (dests (s.dest.getD "") > 1)),
     pieceEntry s.piece, modEntry s.modifiers, customEntry s.customSvg]
    (strEntry_ne_empty _) (strEntry_ne_empty _) (fun hc => ho (strEntry_inj hc))

theorem brush_sensitivity (s : DrawShape) (dests : String → ℕ) (cur : Bool)
    (b : Bounds) (br2 : String) (hb : s.brush ≠ br2) :
    shapeHash s dests cur b ≠ shapeHash { s with brush := br2 } dests cur b :=
  shapeHash_slot_ne
    [numEntry b.width, numEntry b.height, boolEntry cur, strEntry s.orig,
     destEntry s.dest]
    [boolEntry (jsTruthyOpt s.dest && decide (dests (s.dest.getD "") > 1)),
     pieceEntry s.piece, modEntry s.modifiers, customEntry s.customSvg]
    (strEntry_ne_empty _) (strEntry_ne_empty _) (fun hc => hb (strEntry_inj hc))

theorem modifiers_sensitivity (s : DrawShape) (dests : String → ℕ) (cur : Bool)
    (b : Bounds) (m2 : Option DrawModifiers) (hm : modNorm s.modifiers ≠ modNorm m2) :
    shapeHash s dests cur b ≠ shapeHash { s with modifiers := m2 } dests cur b :=
  shapeHash_slot_ne
    [numEntry b.width, numEntry b.height, boolEntry cur, strEntry s.orig,
     destEntry s.dest, strEntry s.brush,
     boolEntry (jsTruthyOpt s.dest && decide (dests (s.dest.getD "") > 1)),
     pieceEntry s.piece]
    [customEntry s.customSvg]
    (modEntry_ne_empty _) (modEntry_ne_empty _) (fun hc => hm (modEntry_inj_norm hc))

theorem custom_sensitivity (s : DrawShape) (dests : String → ℕ) (cur : Bool)
    (b : Bounds) (c2 : Option String) (hcst : customEntry s.customSvg ≠ customEntry c2) :
    shapeHash s dests cur b ≠ shapeHash { s with customSvg := c2 } dests cur b :=
  shapeHash_slot_ne
    [numEntry b.width, numEntry b.height, boolEntry cur, strEntry s.orig,
     destEntry s.dest, strEntry s.brush,
     boolEntry (jsTruthyOpt s.dest && decide (dests (s.dest.getD "") > 1)),
     pieceEntry s.piece, modEntry s.modifiers]
    []
    (customEntry_ne_empty _) (customEntry_ne_empty _) hcst

theorem modifiers_falsy_equivalent (s : DrawShape) (dests : String → ℕ) (cur : Bool)
    (b : Bounds) (o1 o2 : Option DrawModifiers) (hn : modNorm o1 = modNorm o2) :
    shapeHash { s with modifiers := o1 } dests cur b =
      shapeHash { s with modifiers := o2 } dests cur b := by
  have he : modEntry o1 = modEntry o2 := by
    rw [modEntry_eq_norm, modEntry_eq_norm, hn]
  show jsJoin "," (List.filterMap id
      [numEntry b.width, numEntry b.height, boolEntry cur, strEntry s.orig,
       destEntry s.dest, strEntry s.brush,
       boolEntry (jsTruthyOpt s.dest && decide (dests (s.dest.getD "") > 1)),
       pieceEntry s.piece, modEntry o1, customEntry s.customSvg]) = _
  rw [he]
  rfl

theorem jsTruthyOpt_some {v : String} (h : jsTruthyOpt (some v) = true) : v ≠ "" := by
  simpa [jsTruthyOpt] using h

theorem dest_sensitivity (s : DrawShape) (dests : String → ℕ) (cur : Bool)
    (b : Bounds) (d2 : Option String)
    (hne : s.dest ≠ d2)
    (htr : jsTruthyOpt s.dest = true ∨ jsTruthyOpt d2 = true)
    (hcf1 : commaFreeOpt s.dest) (hcf2 : commaFreeOpt d2) :
    shapeHash s dests cur b ≠ shapeHash { s with dest := d2 } dests cur b := by
  have decompose : ∀ dd : Option String,
      shapeHash { s with dest := dd } dests cur b =
        jsJoin ","
          (List.filterMap id
              [numEntry b.width, numEntry b.height, boolEntry cur, strEntry s.orig] ++
            ((destEntry dd).toList ++
              ((strEntry s.brush).toList ++
                ((boolEntry (jsTruthyOpt dd && decide (dests (dd.getD "") > 1))).toList ++
                  List.filterMap id
                    [pieceEntry s.piece, modEntry s.modifiers, customEntry s.customSvg])))) := by
    intro dd
    show jsJoin ","
        (List.filterMap id
          ([numEntry b.width, numEntry b.height, boolEntry cur, strEntry s.orig] ++
            destEntry dd ::
              strEntry s.brush ::
                boolEntry (jsTruthyOpt dd && decide (dests (dd.getD "") > 1)) ::
                  [pieceEntry s.piece, modEntry s.modifiers, customEntry s.customSvg])) = _
    have hsuffix : List.filterMap id
        (destEntry dd ::
          strEntry s.brush ::
            boolEntry (jsTruthyOpt dd && decide (dests (dd.getD "") > 1)) ::
              [pieceEntry s.piece, modEntry s.modifiers, customEntry s.customSvg]) =
        (destEntry dd).toList ++
          ((strEntry s.brush).toList ++
            ((boolEntry (jsTruthyOpt dd && decide (dests (dd.getD "") > 1))).toList ++
              List.filterMap id
                [pieceEntry s.piece, modEntry s.modifiers, customEntry s.customSvg])) := by
      rw [filterMap_id_cons, filterMap_id_cons, filterMap_id_cons]
    rw [List.filterMap_append, hsuffix]
  intro heq
  have heq2 := (decompose s.dest).symm.trans (heq.trans (decompose d2))
  by_cases ht1 : jsTruthyOpt s.dest = true
  · rcases hs1 : s.dest with _ | v1
    · rw [hs1] at ht1; exact absurd ht1 (by decide)
    · have hv1 : v1 ≠ "" := jsTruthyOpt_some (hs1 ▸ ht1)
      have hde1 : (destEntry (some v1)).toList = [v1] := by
        simp [destEntry, strEntry, hv1]
      by_cases ht2 : jsTruthyOpt d2 = true
      · rcases hs2 : d2 with _ | v2
        · rw [hs2] at ht2; exact absurd ht2 (by decide)
        · have hv2 : v2 ≠ "" := jsTruthyOpt_some (hs2 ▸ ht2)
          have hde2 : (destEntry (some v2)).toList = [v2] := by
            simp [destEntry, strEntry, hv2]
          rw [hs1, hs2, hde1, hde2] at heq2
          have hvne : v1 ≠ v2 := by
            intro hc
            apply hne
            rw [hs1, hs2, hc]
          refine join_head_middle_ne
            (List.filterMap id
              [numEntry b.width, numEntry b.height, boolEntry cur, strEntry s.orig])
            ((strEntry s.brush).toList ++
              ((boolEntry (jsTruthyOpt (some v1) &&
                  decide (dests ((some v1).getD "") > 1))).toList ++
                List.filterMap id
                  [pieceEntry s.piece, modEntry s.modifiers, customEntry s.customSvg]))
            ((strEntry s.brush).toList ++
              ((boolEntry (jsTruthyOpt (some v2) &&
                  decide (dests ((some v2).getD "") > 1))).toList ++
                List.filterMap id
                  [pieceEntry s.piece, modEntry s.modifiers, customEntry s.customSvg]))
            v1 v2 ?_ ?_ hvne ?_
          · intro c hc
            exact hcf1 v1 (by rw [hs1]; rfl) c hc
          · intro c hc
            exact hcf2 v2 (by rw [hs2]; rfl) c hc
          · simpa [List.append_assoc] using heq2
      · have ht2' : jsTruthyOpt d2 = false := by
          cases h : jsTruthyOpt d2
          · rfl
          · exact absurd h ht2
        have hde2 : (destEntry d2).toList = [] := by
          rcases d2 with _ | v2
          · rfl
          · have : v2 = "" := by
              by_contra hcon
              exact ht2 (by simpa [jsTruthyOpt] using hcon)
            simp [destEntry, strEntry, this]
        rw [hs1, hde1, ht2', hde2] at heq2
        rw [Bool.false_and, show boolEntry false = none from rfl,
          show (none : Option String).toList = [] from rfl, List.nil_append] at heq2
        exact jsJoin_length_ne_insert
          (List.filterMap id
            [numEntry b.width, numEntry b.height, boolEntry cur, strEntry s.orig])
          ((strEntry s.brush).toList)
          ((boolEntry (jsTruthyOpt (some v1) && decide (dests ((some v1).getD "") > 1))).toList)
          (List.filterMap id
            [pieceEntry s.piece, modEntry s.modifiers, customEntry s.customSvg])
          v1 (str_length_ne_zero hv1)
          (by simpa [List.append_assoc] using congrArg String.length heq2)
  · have ht2 : jsTruthyOpt d2 = true := htr.resolve_left ht1
    have ht1' : jsTruthyOpt s.dest = false := by
      cases h : jsTruthyOpt s.dest
      · rfl
      · exact absurd h ht1
    rcases hs2 : d2 with _ | v2
    · rw [hs2] at ht2; exact absurd ht2 (by decide)
    · have hv2 : v2 ≠ "" := jsTruthyOpt_some (hs2 ▸ ht2)
      have hde2 : (destEntry (some v2)).toList = [v2] := by
        simp [destEntry, strEntry, hv2]
      have hde1 : (destEntry s.dest).toList = [] := by
        rcases hs1 : s.dest with _ | v1
        · rfl
        · have hv1 : v1 = "" := by
            by_contra hcon
            exact ht1 (by rw [hs1]; simpa [jsTruthyOpt] using hcon)
          simp [destEntry, strEntry, hv1]
      rw [hs2, hde1, hde2, ht1'] at heq2
      rw [Bool.false_and, show boolEntry false = none from rfl,
        show (none : Option String).toList = [] from rfl, List.nil_append] at heq2
      exact jsJoin_length_ne_insert
        (List.filterMap id
          [numEntry b.width, numEntry b.height, boolEntry cur, strEntry s.orig])
        ((strEntry s.brush).toList)
        ((boolEntry (jsTruthyOpt (some v2) && decide (dests ((some v2).getD "") > 1))).toList)
        (List.filterMap id
          [pieceEntry s.piece, modEntry s.modifiers, customEntry s.customSvg])
        v2 (str_length_ne_zero hv2)
        (by simpa [List.append_assoc] using (congrArg String.length heq2).symm)

/-- C5 (amended): `shapeHash` joins the fixed-order entry list with falsy
entries dropped; falsy-equivalent modifier records hash identically; and
changing bounds width or height, the live flag, origin, destination
(for comma-free keys, at least one side truthy), brush, modifiers (when not
falsy-equivalent) or custom content (when the custom-content sub-entries
differ — the 32-bit sub-hash admits collisions) changes the fingerprint. -/
theorem shapeHash_structure_and_sensitivity :
    (∀ (s : DrawShape) (dests : String → ℕ) (cur : Bool) (b : Bounds),
        shapeHash s dests cur b =
          jsJoin "," ((hashEntries s dests cur b).filterMap id)) ∧
    (∀ (s : DrawShape) (dests : String → ℕ) (cur : Bool) (b : Bounds)
        (o1 o2 : Option DrawModifiers), modNorm o1 = modNorm o2 →
        shapeHash { s with modifiers := o1 } dests cur b =
          shapeHash { s with modifiers := o2 } dests cur b) ∧
    (∀ (s : DrawShape) (dests : String → ℕ) (cur : Bool) (b1 b2 : Bounds),
        b1.width ≠ b2.width → b1.height = b2.height →
        shapeHash s dests cur b1 ≠ shapeHash s dests cur b2) ∧
    (∀ (s : DrawShape) (dests : String → ℕ) (cur : Bool) (b1 b2 : Bounds),
        b1.height ≠ b2.height → b1.width = b2.width →
        shapeHash s dests cur b1 ≠ shapeHash s dests cur b2) ∧
    (∀ (s : DrawShape) (dests : String → ℕ) (b : Bounds),
        shapeHash s dests true b ≠ shapeHash s dests false b) ∧
    (∀ (s : DrawShape) (dests : String → ℕ) (cur : Bool) (b : Bounds) (o2 : String),
        s.orig ≠ o2 →
        shapeHash s dests cur b ≠ shapeHash { s with orig := o2 } dests cur b) ∧
    (∀ (s : DrawShape) (dests : String → ℕ) (cur : Bool) (b : Bounds) (br2 : String),
        s.brush ≠ br2 →
        shapeHash s dests cur b ≠ shapeHash { s with brush := br2 } dests cur b) ∧
    (∀ (s : DrawShape) (dests : String → ℕ) (cur : Bool) (b : Bounds)
        (d2 : Option String),
        s.dest ≠ d2 →
        jsTruthyOpt s.dest = true ∨ jsTruthyOpt d2 = true →
        commaFreeOpt s.dest → commaFreeOpt d2 →
        shapeHash s dests cur b ≠ shapeHash { s with dest := d2 } dests cur b) ∧
    (∀ (s : DrawShape) (dests : String → ℕ) (cur : Bool) (b : Bounds)
        (m2 : Option DrawModifiers),
        modNorm s.modifiers ≠ modNorm m2 →
        shapeHash s dests cur b ≠ shapeHash { s with modifiers := m2 } dests cur b) ∧
    (∀ (s : DrawShape) (dests : String → ℕ) (cur : Bool) (b : Bounds)
        (c2 : Option String),
        customEntry s.customSvg ≠ customEntry c2 →
        shapeHash s dests cur b ≠ shapeHash { s with customSvg := c2 } dests cur b) :=
  ⟨fun _ _ _ _ => rfl,
   modifiers_falsy_equivalent,
   width_sensitivity,
   height_sensitivity,
   live_flag_sensitivity,
   orig_sensitivity,
   brush_sensitivity,
   dest_sensitivity,
   modifiers_sensitivity,
   custom_sensitivity⟩

/-- Concrete instance of C5: zero-valued modifiers hash like absent
modifiers, and changing a (comma-free, truthy) destination changes the
fingerprint. -/
theorem shapeHash_structure_and_sensitivity_witness :
    shapeHash { arrowShape "a1" "e4" "green" with
        modifiers := some { lineWidth := some 0, hilite := false } }
      (passDests stEmpty.drawable) false b512 =
      shapeHash { arrowShape "a1" "e4" "green" with modifiers := none }
        (passDests stEmpty.drawable) false b512 ∧
    shapeHash (arrowShape "a1" "e4" "green") (passDests stEmpty.drawable) false b512 ≠
      shapeHash { arrowShape "a1" "e4" "green" with dest := some "f6" }
        (passDests stEmpty.drawable) false b512 :=
  ⟨shapeHash_structure_and_sensitivity.2.1 (arrowShape "a1" "e4" "green")
      (passDests stEmpty.drawable) false b512
      (some { lineWidth := some 0, hilite := false }) none rfl,
   shapeHash_structure_and_sensitivity.2.2.2.2.2.2.2.1 (arrowShape "a1" "e4" "green")
      (passDests stEmpty.drawable) false b512 (some "f6") (by decide) (Or.inl rfl)
      (by
        intro v hv c hc heq
        rw [Option.mem_def] at hv
        have hv2 : v = "e4" := (Option.some.inj (show some "e4" = some v from hv)).symm
        subst hv2
        rw [heq] at hc
        revert hc
        decide)
      (by
        intro v hv c hc heq
        rw [Option.mem_def] at hv
        have hv2 : v = "f6" := (Option.some.inj (show some "f6" = some v from hv)).symm
        subst hv2
        rw [heq] at hc
        revert hc
        decide)⟩
